import Mathlib

/-!
Verification of the cli_ai_coder repository: a shallow embedding in Lean 4 of
the pure cores of its diff engine (src/ai/patches.py), plan executor
(src/ai/plan_executor.py), circuit breaker (src/ai/client.py), billing
manager (src/core/billing.py), redaction utility (src/core/utils.py), model
router (src/ai/router.py), BM25 reranker (src/indexer/rerank.py), import
graph (src/indexer/graph.py) and hashed bag-of-words embedding
(src/indexer/embeddings.py), together with theorems settling the stated
specification claims.

Modelling conventions: Python ints are Nat or Int, floats holding money or
times are Rat (the compared values in the claims are exactly representable,
so the Rat comparisons agree with the float comparisons the code performs),
scores built from math.log are Real, strings are Lean String with the
character-level work done on List Char, and Python dicts keyed by strings
are association lists with unique keys.  Functions whose Python source can
loop forever are given a fuel parameter counting outer-loop iterations; the
value .timeout means the fuel ran out, and a result of .timeout for every
fuel value is the shallow-embedding statement that the source loops forever.
-/

/-! ### src/ai/router.py : ModelRouter.choose_model -/

/-- Task types for model routing (router.py TaskType). -/
inductive TaskType
  | explain
  | refactor
  | fixError
  | addTests
  | fixTests
deriving DecidableEq, Repr

namespace ModelRouter

/-- choose_model after the override check: the task-specific routing and the
default routing (router.py lines 52-70). -/
def chooseModelNoOverride (inputLines numFiles : ℕ) (needsPlanning : Bool)
    (taskType : Option TaskType) : String :=
  match taskType with
  | some .explain => "grok-4-fast"
  | some _ =>
    if 400 < inputLines || 1 < numFiles then "grok-4-fast" else "grok-code-fast-1"
  | none =>
    if needsPlanning then
      if 6 < numFiles then "grok-4-fast-reasoning" else "grok-4-fast"
    else if inputLines ≤ 400 && numFiles == 1 then "grok-code-fast-1"
    else "grok-4-fast"

/-- ModelRouter.choose_model (router.py lines 28-70).  Python tests the
override with truthiness (`if override_model:`), so an empty-string override
is treated as absent. -/
def chooseModel (inputLines numFiles : ℕ) (needsPlanning : Bool)
    (overrideModel : Option String) (taskType : Option TaskType) : String :=
  match overrideModel with
  | some m =>
    if m = "" then chooseModelNoOverride inputLines numFiles needsPlanning taskType
    else m
  | none => chooseModelNoOverride inputLines numFiles needsPlanning taskType

end ModelRouter

/-! ### src/core/billing.py : BillingManager -/

/-- A single billing entry (billing.py BillingEntry).  Timestamps and costs
are rationals. -/
structure BillingEntry where
  timestamp : ℚ
  costUsd : ℚ
  model : String
  taskType : String
deriving DecidableEq, Repr

/-- get_monthly_cost restricted to a given month window
[startT, endT) (billing.py lines 73-92; the window bounds come from the
calendar and are passed in here). -/
def getMonthlyCost (entries : List BillingEntry) (startT endT : ℚ) : ℚ :=
  ((entries.filter fun e => startT ≤ e.timestamp && e.timestamp < endT).map
    (·.costUsd)).sum

/-- The status computation of check_budget (billing.py lines 100-108), as a
function of the summed monthly cost and the three configuration fields. -/
def checkBudgetStatus (monthlyCost budget softFrac : ℚ) (hardStop : Bool) : String :=
  if budget ≤ monthlyCost ∧ hardStop then "hard_stop"
  else if budget * softFrac ≤ monthlyCost then "soft_warning"
  else "ok"

/-- check_budget composed over the ledger (billing.py lines 94-116). -/
def checkBudgetOn (entries : List BillingEntry) (startT endT : ℚ)
    (budget softFrac : ℚ) (hardStop : Bool) : String :=
  checkBudgetStatus (getMonthlyCost entries startT endT) budget softFrac hardStop

/-! ### src/ai/client.py : CircuitBreaker -/

/-- Circuit breaker states (client.py CircuitBreakerState). -/
inductive CBState
  | closed
  | cbOpen
  | halfOpen
deriving DecidableEq, Repr

/-- get_state string values. -/
def CBState.value : CBState → String
  | .closed => "closed"
  | .cbOpen => "open"
  | .halfOpen => "half_open"

/-- Circuit breaker for API calls (client.py lines 35-79).  time.time()
readings are passed in as rational `now` arguments. -/
structure CircuitBreaker where
  failThreshold : ℕ
  windowSec : ℚ
  cooldownSec : ℚ
  state : CBState
  failureCount : ℕ
  lastFailureTime : ℚ
  nextAttemptTime : ℚ
deriving DecidableEq, Repr

/-- CircuitBreaker.__init__. -/
def mkCircuitBreaker (failThreshold : ℕ) (windowSec cooldownSec : ℚ) :
    CircuitBreaker :=
  ⟨failThreshold, windowSec, cooldownSec, .closed, 0, 0, 0⟩

/-- should_attempt (client.py lines 47-60); returns the decision and the
possibly updated breaker (open moves to half_open once the cooldown has
elapsed). -/
def CircuitBreaker.shouldAttempt (cb : CircuitBreaker) (now : ℚ) :
    Bool × CircuitBreaker :=
  match cb.state with
  | .closed => (true, cb)
  | .cbOpen =>
    if cb.nextAttemptTime ≤ now then (true, { cb with state := .halfOpen })
    else (false, cb)
  | .halfOpen => (true, cb)

/-- record_success (client.py lines 62-65). -/
def CircuitBreaker.recordSuccess (cb : CircuitBreaker) : CircuitBreaker :=
  { cb with failureCount := 0, state := .closed }

/-- record_failure (client.py lines 67-75). -/
def CircuitBreaker.recordFailure (cb : CircuitBreaker) (now : ℚ) :
    CircuitBreaker :=
  let cb1 := { cb with failureCount := cb.failureCount + 1, lastFailureTime := now }
  if cb.failThreshold ≤ cb1.failureCount then
    { cb1 with state := .cbOpen, nextAttemptTime := now + cb.cooldownSec }
  else cb1

/-! ### src/core/utils.py : redact -/

/-- Python regex word characters, ASCII range (\w = [A-Za-z0-9_]). -/
def isWordChar (c : Char) : Bool := c.isAlphanum || c = '_'

/-- Word-character test for an optional character; out-of-string positions
count as non-word, matching the regex \b convention at string edges. -/
def isWordOpt : Option Char → Bool
  | none => false
  | some c => isWordChar c

/-- Case-insensitive literal match of pat against a front of the text. -/
def matchesCI : List Char → List Char → Bool
  | [], _ => true
  | _ :: _, [] => false
  | p :: ps, c :: cs => (p.toLower == c.toLower) && matchesCI ps cs

/-- One pass of re.sub for the pattern \b<literal>\b with IGNORECASE
(utils.py lines 58-62): scan the text left to right; at each position where
the literal matches case-insensitively with a word boundary on both sides,
emit the replacement and continue after the match (the replacement itself is
not rescanned, and boundary checks read the original text); otherwise copy
one character.  `prev` is the original-text character before the current
position.  `fuel` only serves structural recursion; every step consumes at
least one character, so any fuel at least the text length is enough. -/
def redactGo (pat rep : List Char) : ℕ → Option Char → List Char → List Char
  | 0, _, _ => []
  | _ + 1, _, [] => []
  | fuel + 1, prev, c :: cs =>
    if pat ≠ [] ∧ matchesCI pat (c :: cs) ∧
        (isWordOpt prev != isWordChar c) ∧
        (isWordOpt ((c :: cs).get? (pat.length - 1)) !=
          isWordOpt ((c :: cs).get? pat.length)) then
      rep ++ redactGo pat rep fuel ((c :: cs).get? (pat.length - 1))
        ((c :: cs).drop pat.length)
    else
      c :: redactGo pat rep fuel (some c) cs

/-- redact for a single pattern. -/
def redactOne (text : String) (pat : String) : String :=
  String.mk (redactGo pat.toList "[REDACTED]".toList text.toList.length none
    text.toList)

/-- redact(text, patterns) (utils.py lines 47-63): whole-word,
case-insensitive replacement of each pattern by the literal [REDACTED]. -/
def redact (text : String) (patterns : List String) : String :=
  patterns.foldl redactOne text

/-! ### Claim theorems: C3, C4, C5, C6 -/

/-- The breaker after one recorded failure (fail_threshold 2). -/
def cbAfterOneFailure (w c t1 : ℚ) : CircuitBreaker :=
  (mkCircuitBreaker 2 w c).recordFailure t1

/-- The breaker after a second consecutive recorded failure. -/
def cbAfterTwoFailures (w c t1 t2 : ℚ) : CircuitBreaker :=
  (cbAfterOneFailure w c t1).recordFailure t2

/-- The breaker produced by the first permitted attempt after the cooldown. -/
def cbHalfOpen (w c t1 t2 now : ℚ) : CircuitBreaker :=
  ((cbAfterTwoFailures w c t1 t2).shouldAttempt now).2

/-- C3: with fail_threshold 2, the breaker is closed and permits attempts
after zero or one failure; the second consecutive failure opens it with
next_attempt_time = failure time + cooldown, and attempts are refused until
the cooldown elapses; the first attempt at or after that instant is
permitted and moves the breaker to half_open; record_success from half_open
closes it with failure_count 0, while record_failure from half_open reopens
it with a fresh cooldown window. -/
theorem C3_circuit_breaker (w c t1 t2 t3 nowA nowB : ℚ)
    (hB : t2 + c ≤ nowB) :
    ((mkCircuitBreaker 2 w c).state = .closed ∧
      ((mkCircuitBreaker 2 w c).shouldAttempt nowA).1 = true) ∧
    ((cbAfterOneFailure w c t1).state = .closed ∧
      (cbAfterOneFailure w c t1).failureCount = 1 ∧
      ((cbAfterOneFailure w c t1).shouldAttempt nowA).1 = true) ∧
    ((cbAfterTwoFailures w c t1 t2).state = .cbOpen ∧
      (cbAfterTwoFailures w c t1 t2).nextAttemptTime = t2 + c) ∧
    (∀ now : ℚ, now < t2 + c →
      ((cbAfterTwoFailures w c t1 t2).shouldAttempt now).1 = false) ∧
    (∀ now : ℚ, t2 + c ≤ now →
      ((cbAfterTwoFailures w c t1 t2).shouldAttempt now).1 = true ∧
      (cbHalfOpen w c t1 t2 now).state = .halfOpen) ∧
    ((cbHalfOpen w c t1 t2 nowB).recordSuccess.state = .closed ∧
      (cbHalfOpen w c t1 t2 nowB).recordSuccess.failureCount = 0) ∧
    (((cbHalfOpen w c t1 t2 nowB).recordFailure t3).state = .cbOpen ∧
      ((cbHalfOpen w c t1 t2 nowB).recordFailure t3).nextAttemptTime = t3 + c) :=
  by
  have hhalf : (cbHalfOpen w c t1 t2 nowB).state = .halfOpen := by
    simp [cbHalfOpen, cbAfterTwoFailures, cbAfterOneFailure, mkCircuitBreaker,
      CircuitBreaker.recordFailure, CircuitBreaker.shouldAttempt, hB]
  refine ⟨⟨rfl, rfl⟩, ⟨rfl, rfl, rfl⟩, ⟨rfl, rfl⟩, ?_, ?_, ?_, ?_⟩
  · intro now hnow
    simp [cbAfterTwoFailures, cbAfterOneFailure, mkCircuitBreaker,
      CircuitBreaker.recordFailure, CircuitBreaker.shouldAttempt,
      not_le.mpr hnow]
  · intro now hnow
    constructor
    · simp [cbAfterTwoFailures, cbAfterOneFailure, mkCircuitBreaker,
        CircuitBreaker.recordFailure, CircuitBreaker.shouldAttempt, hnow]
    · simp [cbHalfOpen, cbAfterTwoFailures, cbAfterOneFailure, mkCircuitBreaker,
        CircuitBreaker.recordFailure, CircuitBreaker.shouldAttempt, hnow]
  · rw [CircuitBreaker.recordSuccess]
    exact ⟨rfl, rfl⟩
  · rw [CircuitBreaker.recordFailure]
    have hcount : (cbHalfOpen w c t1 t2 nowB).failureCount = 2 := by
      simp [cbHalfOpen, cbAfterTwoFailures, cbAfterOneFailure, mkCircuitBreaker,
        CircuitBreaker.recordFailure, CircuitBreaker.shouldAttempt, hB]
    have hthr : (cbHalfOpen w c t1 t2 nowB).failThreshold = 2 := by
      simp [cbHalfOpen, cbAfterTwoFailures, cbAfterOneFailure, mkCircuitBreaker,
        CircuitBreaker.recordFailure, CircuitBreaker.shouldAttempt, hB]
    have hcool : (cbHalfOpen w c t1 t2 nowB).cooldownSec = c := by
      simp [cbHalfOpen, cbAfterTwoFailures, cbAfterOneFailure, mkCircuitBreaker,
        CircuitBreaker.recordFailure, CircuitBreaker.shouldAttempt, hB]
    simp [hcount, hthr, hcool]

/-- C3 witness: the scenario instantiated with cooldown 30 at concrete
times. -/
theorem C3_circuit_breaker_witness :
    ((1 : ℚ) + 30 ≤ 31) ∧
    (cbHalfOpen 60 30 0 1 31).recordSuccess.state = .closed ∧
    ((cbHalfOpen 60 30 0 1 31).recordFailure 40).nextAttemptTime = 40 + 30 :=
  ⟨by norm_num,
    (C3_circuit_breaker 60 30 0 1 40 5 31 (by norm_num)).2.2.2.2.2.1.1,
    (C3_circuit_breaker 60 30 0 1 40 5 31 (by norm_num)).2.2.2.2.2.2.2⟩

/-- C4: with monthly_budget_usd 5, soft_limit_ratio 0.8 and hard_stop
enabled, a summed monthly cost of 3.00 reports ok, 4.50 reports
soft_warning, and 5.00 reports hard_stop; in general the status is
hard_stop when the monthly total is at or over the budget and hard stop is
enabled, soft_warning when it is at or over soft ratio times the budget,
and ok otherwise. -/
theorem C4_check_budget :
    (checkBudgetOn [⟨5, 3, "grok-4-fast", "explain"⟩] 0 100 5 (4/5) true
        = "ok") ∧
    (checkBudgetOn [⟨5, 9/2, "grok-4-fast", "explain"⟩] 0 100 5 (4/5) true
        = "soft_warning") ∧
    (checkBudgetOn [⟨5, 5, "grok-4-fast", "explain"⟩] 0 100 5 (4/5) true
        = "hard_stop") ∧
    (∀ (cost budget frac : ℚ) (hardStop : Bool),
      (checkBudgetStatus cost budget frac hardStop = "hard_stop" ↔
        budget ≤ cost ∧ hardStop = true) ∧
      (checkBudgetStatus cost budget frac hardStop = "soft_warning" ↔
        ¬(budget ≤ cost ∧ hardStop = true) ∧ budget * frac ≤ cost) ∧
      (checkBudgetStatus cost budget frac hardStop = "ok" ↔
        ¬(budget ≤ cost ∧ hardStop = true) ∧ ¬budget * frac ≤ cost)) := by
  refine ⟨by norm_num [checkBudgetOn, getMonthlyCost, checkBudgetStatus],
    by norm_num [checkBudgetOn, getMonthlyCost, checkBudgetStatus],
    by norm_num [checkBudgetOn, getMonthlyCost, checkBudgetStatus], ?_⟩
  intro cost budget frac hardStop
  have h1 : ("hard_stop" : String) ≠ "soft_warning" := by decide
  have h2 : ("hard_stop" : String) ≠ "ok" := by decide
  have h3 : ("soft_warning" : String) ≠ "ok" := by decide
  unfold checkBudgetStatus
  split_ifs with ha hb
  · simp_all
  · simp_all
  · simp_all

/-- C5: redact performs whole-word, case-insensitive replacement of each
pattern with the literal token [REDACTED]: with pattern SECRET the text
"token: SECRET123" is returned unchanged (no whole-word match), while
"token: SECRET" becomes "token: [REDACTED]"; matching is case-insensitive
and respects word boundaries on both sides. -/
theorem C5_redact :
    redact "token: SECRET123" ["SECRET"] = "token: SECRET123" ∧
    redact "token: SECRET" ["SECRET"] = "token: [REDACTED]" ∧
    redact "token: secret" ["SECRET"] = "token: [REDACTED]" ∧
    redact "a SECRET, kept" ["SECRET"] = "a [REDACTED], kept" ∧
    redact "mySECRET" ["SECRET"] = "mySECRET" := by
  refine ⟨by decide, by decide, by decide, by decide, by decide⟩

/-- C6: choose_model follows the priority-ordered routing rules: the three
quoted instances; a nonempty explicit override always wins; an explain task
always routes to the mid tier; refactor, fix-error, add-tests and fix-tests
tasks route to the mid tier exactly when the input exceeds 400 lines or
more than one file is involved, and to the fast model otherwise. -/
theorem C6_choose_model :
    (ModelRouter.chooseModel 200 1 false none none = "grok-code-fast-1") ∧
    (ModelRouter.chooseModel 500 3 false none none = "grok-4-fast") ∧
    (∀ lines : ℕ,
      ModelRouter.chooseModel lines 7 true none none = "grok-4-fast-reasoning") ∧
    (∀ (lines files : ℕ) (planning : Bool) (t : Option TaskType) (m : String),
      m ≠ "" → ModelRouter.chooseModel lines files planning (some m) t = m) ∧
    (∀ (lines files : ℕ) (planning : Bool),
      ModelRouter.chooseModel lines files planning none (some .explain)
        = "grok-4-fast") ∧
    (∀ (lines files : ℕ) (planning : Bool) (t : TaskType), t ≠ .explain →
      ModelRouter.chooseModel lines files planning none (some t) =
        if 400 < lines || 1 < files then "grok-4-fast"
        else "grok-code-fast-1") := by
  refine ⟨rfl, rfl, fun lines => rfl, ?_, fun _ _ _ => rfl, ?_⟩
  · intro lines files planning t m hm
    simp [ModelRouter.chooseModel, hm]
  · intro lines files planning t ht
    cases t with
    | explain => exact absurd rfl ht
    | refactor => rfl
    | fixError => rfl
    | addTests => rfl
    | fixTests => rfl

/-- C6 witness: the override and task-specific rules at concrete inputs. -/
theorem C6_choose_model_witness :
    (("grok-3" : String) ≠ "" ∧
      ModelRouter.chooseModel 100 1 false (some "grok-3") none = "grok-3") ∧
    (TaskType.refactor ≠ TaskType.explain ∧
      ModelRouter.chooseModel 500 1 false none (some .refactor)
        = if 400 < 500 || 1 < 1 then "grok-4-fast" else "grok-code-fast-1") :=
  ⟨⟨by decide, C6_choose_model.2.2.2.1 100 1 false none "grok-3" (by decide)⟩,
    ⟨by decide, C6_choose_model.2.2.2.2.2 500 1 false .refactor (by decide)⟩⟩

/-! ### src/indexer/graph.py : GraphIndex.neighbors

Python sets of node indices are modeled as strictly ascending lists of
naturals, built with `insertSorted`; iteration over a set is modeled as
iteration in ascending order.  The claims settled below do not depend on
the iteration order: they either avoid hitting the node cap mid-loop or
concern the seed set only. -/

/-- Insert into an ascending duplicate-free list, keeping it so. -/
def insertSorted (n : ℕ) : List ℕ → List ℕ
  | [] => [n]
  | m :: ms =>
    if n < m then n :: m :: ms
    else if n = m then m :: ms
    else m :: insertSorted n ms

/-- Build the sorted-set representation of a list of indices. -/
def mkSortedSet (l : List ℕ) : List ℕ :=
  l.foldl (fun acc n => insertSorted n acc) []

/-- Index of the first occurrence of a string (the node_map dict). -/
def lookupIdx (s : String) : List String → Option ℕ
  | [] => none
  | x :: xs => if x = s then some 0 else (lookupIdx s xs).map (· + 1)

/-- Cross-file symbol graph (graph.py GraphIndex): node paths and weighted
edges (from_idx, to_idx, weight). -/
structure GraphIndex where
  nodes : List String
  edges : List (ℕ × ℕ × ℚ)

/-- node_map lookup: path to index. -/
def GraphIndex.lookup (g : GraphIndex) (s : String) : Option ℕ :=
  lookupIdx s g.nodes

/-- State of the breadth-first expansion in neighbors. -/
structure BfsSt where
  visited : List ℕ
  result : List ℕ
  nextLevel : List ℕ

/-- The inner edge loop of neighbors (graph.py lines 51-57): follow each
outgoing edge of idx to an unvisited target, stopping once the node cap is
reached. -/
def procEdges (maxNodes idx : ℕ) : List (ℕ × ℕ × ℚ) → BfsSt → BfsSt
  | [], st => st
  | (f, t, _) :: rest, st =>
    if f = idx ∧ ¬ st.visited.contains t then
      let st1 : BfsSt :=
        ⟨insertSorted t st.visited, insertSorted t st.result,
          insertSorted t st.nextLevel⟩
      if maxNodes ≤ st1.result.length then st1
      else procEdges maxNodes idx rest st1
    else procEdges maxNodes idx rest st

/-- The loop over the current level (graph.py lines 47-59). -/
def procCurrent (edges : List (ℕ × ℕ × ℚ)) (maxNodes : ℕ) :
    List ℕ → BfsSt → BfsSt
  | [], st => st
  | idx :: rest, st =>
    if maxNodes ≤ st.result.length then st
    else procCurrent edges maxNodes rest (procEdges maxNodes idx edges st)

/-- The depth loop of neighbors (graph.py lines 43-62). -/
def bfsLoop (edges : List (ℕ × ℕ × ℚ)) (maxNodes : ℕ) :
    ℕ → List ℕ → List ℕ → List ℕ → List ℕ
  | 0, _, _, result => result
  | d + 1, current, visited, result =>
    if maxNodes ≤ result.length then result
    else
      let st := procCurrent edges maxNodes current ⟨visited, result, []⟩
      if st.nextLevel = [] then st.result
      else bfsLoop edges maxNodes d st.nextLevel st.visited st.result

/-- The final conversion loop of neighbors (graph.py lines 65-70): walk the
sorted result indices, keep valid ones, stop at max_nodes entries. -/
def takeNodes (nodes : List String) : ℕ → List ℕ → List String
  | _, [] => []
  | cap, i :: rest =>
    if cap = 0 then []
    else
      match nodes[i]? with
      | some s => s :: takeNodes nodes (cap - 1) rest
      | none => takeNodes nodes cap rest

/-- GraphIndex.neighbors (graph.py lines 24-72). -/
def GraphIndex.neighbors (g : GraphIndex) (seeds : List String)
    (depth maxNodes : ℕ) : List String :=
  if seeds = [] ∨ depth < 1 then seeds
  else
    let seedIdx := mkSortedSet (seeds.filterMap g.lookup)
    if seedIdx = [] then seeds
    else takeNodes g.nodes maxNodes (bfsLoop g.edges maxNodes depth seedIdx seedIdx seedIdx)

/-- The linear import chain a→b→c→d. -/
def chainGraph : GraphIndex :=
  ⟨["a", "b", "c", "d"], [(0, 1, 1), (1, 2, 1), (2, 3, 1)]⟩

/-- Three isolated nodes, used to exhibit a dropped seed. -/
def triGraph : GraphIndex := ⟨["a", "b", "c"], []⟩

/-! ### Lemmas about the neighbors embedding -/

theorem insertSorted_ne_nil (n : ℕ) (l : List ℕ) : insertSorted n l ≠ [] := by
  cases l with
  | nil => simp [insertSorted]
  | cons m ms =>
    unfold insertSorted
    split_ifs <;> simp

theorem foldl_insertSorted_ne_nil (l : List ℕ) :
    ∀ acc : List ℕ, acc ≠ [] ∨ l ≠ [] →
      l.foldl (fun a n => insertSorted n a) acc ≠ [] := by
  induction l with
  | nil =>
    intro acc h
    simpa using h.resolve_right (by simp)
  | cons x xs ih =>
    intro acc _
    exact ih (insertSorted x acc) (Or.inl (insertSorted_ne_nil x acc))

theorem mem_insertSorted (a n : ℕ) (l : List ℕ) :
    a ∈ insertSorted n l ↔ a = n ∨ a ∈ l := by
  induction l with
  | nil => simp [insertSorted]
  | cons m ms ih =>
    unfold insertSorted
    split_ifs with h1 h2
    · simp
    · subst h2
      simp only [List.mem_cons]
      tauto
    · simp only [List.mem_cons, ih]
      tauto

theorem subset_insertSorted (n : ℕ) (l : List ℕ) : l ⊆ insertSorted n l := by
  intro a ha
  exact (mem_insertSorted a n l).mpr (Or.inr ha)

theorem mem_mkSortedSet_of_mem {a : ℕ} {l : List ℕ} (h : a ∈ l) :
    a ∈ mkSortedSet l := by
  unfold mkSortedSet
  suffices hgen : ∀ acc : List ℕ, a ∈ l ∨ a ∈ acc →
      a ∈ l.foldl (fun ac n => insertSorted n ac) acc from
    hgen [] (Or.inl h)
  clear h
  induction l with
  | nil =>
    intro acc h
    simpa using h.resolve_left (by simp)
  | cons x xs ih =>
    intro acc h
    simp only [List.foldl_cons]
    rcases h with h | h
    · rcases List.mem_cons.mp h with rfl | h
      · exact ih (insertSorted a acc)
          (Or.inr ((mem_insertSorted a a acc).mpr (Or.inl rfl)))
      · exact ih (insertSorted x acc) (Or.inl h)
    · exact ih (insertSorted x acc)
        (Or.inr ((mem_insertSorted a x acc).mpr (Or.inr h)))

theorem sorted_insertSorted {n : ℕ} {l : List ℕ}
    (h : l.Sorted (· < ·)) : (insertSorted n l).Sorted (· < ·) := by
  induction l with
  | nil => simp [insertSorted]
  | cons m ms ih =>
    have hms : ms.Sorted (· < ·) := h.of_cons
    unfold insertSorted
    split_ifs with h1 h2
    · refine List.sorted_cons.mpr ⟨?_, h⟩
      intro b hb
      rcases List.mem_cons.mp hb with rfl | hb
      · exact h1
      · exact h1.trans (List.rel_of_sorted_cons h b hb)
    · exact h
    · have h3 : m < n := by omega
      refine List.sorted_cons.mpr ⟨?_, ih hms⟩
      intro b hb
      rcases (mem_insertSorted b n ms).mp hb with rfl | hb
      · exact h3
      · exact List.rel_of_sorted_cons h b hb

theorem sorted_mkSortedSet (l : List ℕ) : (mkSortedSet l).Sorted (· < ·) := by
  unfold mkSortedSet
  suffices hgen : ∀ acc : List ℕ, acc.Sorted (· < ·) →
      (l.foldl (fun ac n => insertSorted n ac) acc).Sorted (· < ·) from
    hgen [] (by simp)
  induction l with
  | nil => intro acc h; simpa using h
  | cons x xs ih =>
    intro acc h
    exact ih (insertSorted x acc) (sorted_insertSorted h)

/-- A strictly ascending list of indices below N has at most N entries. -/
theorem sorted_length_le {l : List ℕ} {N : ℕ} (hs : l.Sorted (· < ·))
    (hb : ∀ a ∈ l, a < N) : l.length ≤ N := by
  have hnd : l.Nodup := hs.nodup
  have hsub : l.toFinset ⊆ Finset.range N := by
    intro a ha
    simp only [Finset.mem_range]
    exact hb a (List.mem_toFinset.mp ha)
  have := Finset.card_le_card hsub
  rwa [List.toFinset_card_of_nodup hnd, Finset.card_range] at this

theorem lookupIdx_get? {s : String} {l : List String} {i : ℕ}
    (h : lookupIdx s l = some i) : l[i]? = some s := by
  induction l generalizing i with
  | nil => simp [lookupIdx] at h
  | cons x xs ih =>
    unfold lookupIdx at h
    split_ifs at h with hx
    · cases h
      simpa using hx
    · cases hli : lookupIdx s xs with
      | none => rw [hli] at h; simp at h
      | some j =>
        rw [hli] at h
        simp at h
        subst h
        simpa using ih hli

theorem procEdges_result_subset (maxNodes idx : ℕ) :
    ∀ (es : List (ℕ × ℕ × ℚ)) (st : BfsSt),
      st.result ⊆ (procEdges maxNodes idx es st).result := by
  intro es
  induction es with
  | nil => intro st; simp [procEdges]
  | cons e rest ih =>
    intro st
    obtain ⟨f, t, w⟩ := e
    unfold procEdges
    dsimp only
    split_ifs with h1 h2
    · exact subset_insertSorted t st.result
    · exact (subset_insertSorted t st.result).trans
        (ih ⟨insertSorted t st.visited, insertSorted t st.result,
          insertSorted t st.nextLevel⟩)
    · exact ih st

theorem procCurrent_result_subset (edges : List (ℕ × ℕ × ℚ)) (maxNodes : ℕ) :
    ∀ (cur : List ℕ) (st : BfsSt),
      st.result ⊆ (procCurrent edges maxNodes cur st).result := by
  intro cur
  induction cur with
  | nil => intro st; simp [procCurrent]
  | cons idx rest ih =>
    intro st
    unfold procCurrent
    split_ifs with h1
    · exact fun a ha => ha
    · exact (procEdges_result_subset maxNodes idx edges st).trans (ih _)

theorem bfsLoop_result_subset (edges : List (ℕ × ℕ × ℚ)) (maxNodes : ℕ) :
    ∀ (d : ℕ) (current visited result : List ℕ),
      result ⊆ bfsLoop edges maxNodes d current visited result := by
  intro d
  induction d with
  | zero => intro current visited result; simp [bfsLoop]
  | succ d ih =>
    intro current visited result
    unfold bfsLoop
    dsimp only
    split_ifs with h1 h2
    · exact fun a ha => ha
    · exact procCurrent_result_subset edges maxNodes current ⟨visited, result, []⟩
    · exact (procCurrent_result_subset edges maxNodes current
        ⟨visited, result, []⟩).trans (ih _ _ _)

theorem procEdges_result_sorted (maxNodes idx : ℕ) :
    ∀ (es : List (ℕ × ℕ × ℚ)) (st : BfsSt),
      st.result.Sorted (· < ·) →
      (procEdges maxNodes idx es st).result.Sorted (· < ·) := by
  intro es
  induction es with
  | nil => intro st h; simpa [procEdges] using h
  | cons e rest ih =>
    intro st h
    obtain ⟨f, t, w⟩ := e
    unfold procEdges
    dsimp only
    split_ifs with h1 h2
    · exact sorted_insertSorted h
    · exact ih _ (sorted_insertSorted h)
    · exact ih st h

theorem procCurrent_result_sorted (edges : List (ℕ × ℕ × ℚ)) (maxNodes : ℕ) :
    ∀ (cur : List ℕ) (st : BfsSt),
      st.result.Sorted (· < ·) →
      (procCurrent edges maxNodes cur st).result.Sorted (· < ·) := by
  intro cur
  induction cur with
  | nil => intro st h; simpa [procCurrent] using h
  | cons idx rest ih =>
    intro st h
    unfold procCurrent
    split_ifs with h1
    · exact h
    · exact ih _ (procEdges_result_sorted maxNodes idx edges st h)

theorem bfsLoop_result_sorted (edges : List (ℕ × ℕ × ℚ)) (maxNodes : ℕ) :
    ∀ (d : ℕ) (current visited result : List ℕ),
      result.Sorted (· < ·) →
      (bfsLoop edges maxNodes d current visited result).Sorted (· < ·) := by
  intro d
  induction d with
  | zero => intro current visited result h; simpa [bfsLoop] using h
  | succ d ih =>
    intro current visited result h
    unfold bfsLoop
    dsimp only
    split_ifs with h1 h2
    · exact h
    · exact procCurrent_result_sorted edges maxNodes current ⟨visited, result, []⟩ h
    · exact ih _ _ _
        (procCurrent_result_sorted edges maxNodes current ⟨visited, result, []⟩ h)

theorem procEdges_result_bounded (maxNodes idx N : ℕ) :
    ∀ (es : List (ℕ × ℕ × ℚ)) (st : BfsSt),
      (∀ e ∈ es, e.2.1 < N) →
      (∀ a ∈ st.result, a < N) →
      ∀ a ∈ (procEdges maxNodes idx es st).result, a < N := by
  intro es
  induction es with
  | nil => intro st _ h; simpa [procEdges] using h
  | cons e rest ih =>
    intro st hedge h
    obtain ⟨f, t, w⟩ := e
    have ht : t < N := hedge (f, t, w) (List.mem_cons_self _ _)
    have hrest : ∀ e ∈ rest, e.2.1 < N := fun e he =>
      hedge e (List.mem_cons_of_mem _ he)
    have hins : ∀ a ∈ insertSorted t st.result, a < N := by
      intro a ha
      rcases (mem_insertSorted a t st.result).mp ha with rfl | ha
      · exact ht
      · exact h a ha
    unfold procEdges
    dsimp only
    split_ifs with h1 h2
    · exact hins
    · exact ih _ hrest hins
    · exact ih st hrest h

theorem procCurrent_result_bounded (edges : List (ℕ × ℕ × ℚ)) (maxNodes N : ℕ)
    (hedge : ∀ e ∈ edges, e.2.1 < N) :
    ∀ (cur : List ℕ) (st : BfsSt),
      (∀ a ∈ st.result, a < N) →
      ∀ a ∈ (procCurrent edges maxNodes cur st).result, a < N := by
  intro cur
  induction cur with
  | nil => intro st h; simpa [procCurrent] using h
  | cons idx rest ih =>
    intro st h
    unfold procCurrent
    split_ifs with h1
    · exact h
    · exact ih _ (procEdges_result_bounded maxNodes idx N edges st hedge h)

theorem bfsLoop_result_bounded (edges : List (ℕ × ℕ × ℚ)) (maxNodes N : ℕ)
    (hedge : ∀ e ∈ edges, e.2.1 < N) :
    ∀ (d : ℕ) (current visited result : List ℕ),
      (∀ a ∈ result, a < N) →
      ∀ a ∈ bfsLoop edges maxNodes d current visited result, a < N := by
  intro d
  induction d with
  | zero => intro current visited result h; simpa [bfsLoop] using h
  | succ d ih =>
    intro current visited result h
    unfold bfsLoop
    dsimp only
    split_ifs with h1 h2
    · exact h
    · exact procCurrent_result_bounded edges maxNodes N hedge current
        ⟨visited, result, []⟩ h
    · exact ih _ _ _
        (procCurrent_result_bounded edges maxNodes N hedge current
          ⟨visited, result, []⟩ h)

theorem takeNodes_length_le (nodes : List String) :
    ∀ (l : List ℕ) (cap : ℕ), (takeNodes nodes cap l).length ≤ cap := by
  intro l
  induction l with
  | nil => intro cap; simp [takeNodes]
  | cons i rest ih =>
    intro cap
    unfold takeNodes
    split_ifs with h1
    · simp
    · cases hget : nodes[i]? with
      | some s =>
        simp only [List.length_cons]
        have := ih (cap - 1)
        omega
      | none => exact ih cap

theorem takeNodes_mem (nodes : List String) :
    ∀ (l : List ℕ) (cap : ℕ),
      l.countP (fun i => nodes[i]?.isSome) ≤ cap →
      ∀ (i : ℕ) (s : String), i ∈ l → nodes[i]? = some s →
        s ∈ takeNodes nodes cap l := by
  intro l
  induction l with
  | nil => intro cap _ i s hi; simp at hi
  | cons j rest ih =>
    intro cap hcount i s hi hget
    unfold takeNodes
    split_ifs with h1
    · exfalso
      have hpos : 0 < (j :: rest).countP (fun i => nodes[i]?.isSome) :=
        List.countP_pos_iff.mpr ⟨i, hi, by simp [hget]⟩
      omega
    · cases hgetj : nodes[j]? with
      | some sj =>
        have hc2 : rest.countP (fun i => nodes[i]?.isSome) + 1 ≤ cap := by
          rw [List.countP_cons] at hcount
          simpa [hgetj] using hcount
        rcases List.mem_cons.mp hi with rfl | hi
        · rw [hgetj] at hget
          cases hget
          exact List.mem_cons_self _ _
        · exact List.mem_cons_of_mem _ (ih (cap - 1) (by omega) i s hi hget)
      | none =>
        have hc2 : rest.countP (fun i => nodes[i]?.isSome) ≤ cap := by
          rw [List.countP_cons] at hcount
          simpa [hgetj] using hcount
        rcases List.mem_cons.mp hi with rfl | hi
        · rw [hgetj] at hget
          cases hget
        · exact ih cap hc2 i s hi hget

theorem mkSortedSet_ne_nil {l : List ℕ} (h : l ≠ []) : mkSortedSet l ≠ [] :=
  foldl_insertSorted_ne_nil l [] (Or.inr h)

theorem mem_of_mem_mkSortedSet {a : ℕ} {l : List ℕ}
    (h : a ∈ mkSortedSet l) : a ∈ l := by
  unfold mkSortedSet at h
  suffices hgen : ∀ acc : List ℕ,
      a ∈ l.foldl (fun ac n => insertSorted n ac) acc → a ∈ l ∨ a ∈ acc by
    rcases hgen [] h with h1 | h1
    · exact h1
    · simp at h1
  clear h
  induction l with
  | nil =>
    intro acc h
    exact Or.inr (by simpa using h)
  | cons x xs ih =>
    intro acc h
    simp only [List.foldl_cons] at h
    rcases ih (insertSorted x acc) h with h1 | h1
    · exact Or.inl (List.mem_cons_of_mem _ h1)
    · rcases (mem_insertSorted a x acc).mp h1 with rfl | h1
      · exact Or.inl (List.mem_cons_self _ _)
      · exact Or.inr h1

theorem lookupIdx_lt_length {s : String} {l : List String} {i : ℕ}
    (h : lookupIdx s l = some i) : i < l.length := by
  have := lookupIdx_get? h
  exact (List.getElem?_eq_some.mp this).1

/-- C8 counterexample: neighbors does not always include the seeds, and the
result is not always within max_nodes.  With three isolated nodes a, b, c
all given as seeds and max_nodes 2, the seed c is dropped from the result
even though depth is 1 and c is a graph node; and with depth 0 the function
returns the three seeds untouched, exceeding max_nodes 2. -/
theorem C8_neighbors_counterexample :
    ("c" ∈ (["a", "b", "c"] : List String) ∧
      triGraph.lookup "c" ≠ none ∧
      triGraph.neighbors ["a", "b", "c"] 1 2 = ["a", "b"] ∧
      "c" ∉ triGraph.neighbors ["a", "b", "c"] 1 2) ∧
    (triGraph.neighbors ["a", "b", "c"] 0 2 = ["a", "b", "c"] ∧
      2 < (triGraph.neighbors ["a", "b", "c"] 0 2).length) := by
  refine ⟨⟨by decide, by decide, by decide, by decide⟩, by decide, by decide⟩

/-- C8 amended: neighbors is a breadth-first expansion along outgoing
edges.  On the chain a→b→c→d, depth 1 from a gives exactly a, b and depth 3
gives all four nodes.  When depth is at least 1 and some seed is a graph
node, the result has at most max_nodes entries; when seeds is empty, depth
is 0, or no seed is in the graph, the seed list itself is returned
unchanged.  Every seed that is a graph node appears in the result provided
no truncation can occur: with well-formed edges and at most max_nodes nodes
in the whole graph, all such seeds are included. -/
theorem C8_neighbors :
    (chainGraph.neighbors ["a"] 1 50 = ["a", "b"]) ∧
    (chainGraph.neighbors ["a"] 3 50 = ["a", "b", "c", "d"]) ∧
    (∀ (g : GraphIndex) (seeds : List String) (depth maxNodes : ℕ),
      1 ≤ depth → (∃ s ∈ seeds, g.lookup s ≠ none) →
      (g.neighbors seeds depth maxNodes).length ≤ maxNodes) ∧
    (∀ (g : GraphIndex) (seeds : List String) (depth maxNodes : ℕ),
      seeds = [] ∨ depth = 0 ∨ (∀ s ∈ seeds, g.lookup s = none) →
      g.neighbors seeds depth maxNodes = seeds) ∧
    (∀ (g : GraphIndex) (seeds : List String) (depth maxNodes : ℕ),
      1 ≤ depth →
      (∀ e ∈ g.edges, e.2.1 < g.nodes.length) →
      g.nodes.length ≤ maxNodes →
      ∀ s ∈ seeds, g.lookup s ≠ none → s ∈ g.neighbors seeds depth maxNodes) := by
  refine ⟨by decide, by decide, ?_, ?_, ?_⟩
  · intro g seeds depth maxNodes hd hex
    obtain ⟨s, hs, hlk⟩ := hex
    have hseeds : seeds ≠ [] := List.ne_nil_of_mem hs
    have hguard : ¬(seeds = [] ∨ depth < 1) := by
      push_neg
      exact ⟨hseeds, by omega⟩
    cases hcase : g.lookup s with
    | none => exact absurd hcase hlk
    | some i =>
      have hmem : i ∈ seeds.filterMap g.lookup :=
        List.mem_filterMap.mpr ⟨s, hs, hcase⟩
      have hne : mkSortedSet (seeds.filterMap g.lookup) ≠ [] :=
        mkSortedSet_ne_nil (List.ne_nil_of_mem hmem)
      unfold GraphIndex.neighbors
      rw [if_neg hguard]
      dsimp only
      rw [if_neg hne]
      exact takeNodes_length_le g.nodes _ maxNodes
  · intro g seeds depth maxNodes h
    unfold GraphIndex.neighbors
    rcases h with rfl | h
    · rw [if_pos (Or.inl rfl)]
    · rcases h with rfl | h
      · rw [if_pos (Or.inr (by omega))]
      · by_cases hguard : seeds = [] ∨ depth < 1
        · rw [if_pos hguard]
        · rw [if_neg hguard]
          dsimp only
          rw [if_pos]
          rw [List.filterMap_eq_nil_iff.mpr h]
          rfl
  · intro g seeds depth maxNodes hd hedge hcap s hs hlk
    cases hcase : g.lookup s with
    | none => exact absurd hcase hlk
    | some i =>
      have hseeds : seeds ≠ [] := List.ne_nil_of_mem hs
      have hguard : ¬(seeds = [] ∨ depth < 1) := by
        push_neg
        exact ⟨hseeds, by omega⟩
      have hmem : i ∈ seeds.filterMap g.lookup :=
        List.mem_filterMap.mpr ⟨s, hs, hcase⟩
      have hne : mkSortedSet (seeds.filterMap g.lookup) ≠ [] :=
        mkSortedSet_ne_nil (List.ne_nil_of_mem hmem)
      have hiseed : i ∈ mkSortedSet (seeds.filterMap g.lookup) :=
        mem_mkSortedSet_of_mem hmem
      have hseedbound : ∀ a ∈ mkSortedSet (seeds.filterMap g.lookup),
          a < g.nodes.length := by
        intro a ha
        rcases List.mem_filterMap.mp (mem_of_mem_mkSortedSet ha) with
          ⟨s', _, hlk'⟩
        exact lookupIdx_lt_length hlk'
      have hibfs : i ∈ bfsLoop g.edges maxNodes depth
          (mkSortedSet (seeds.filterMap g.lookup))
          (mkSortedSet (seeds.filterMap g.lookup))
          (mkSortedSet (seeds.filterMap g.lookup)) :=
        bfsLoop_result_subset g.edges maxNodes depth _ _ _ hiseed
      have hsorted := bfsLoop_result_sorted g.edges maxNodes depth
        (mkSortedSet (seeds.filterMap g.lookup))
        (mkSortedSet (seeds.filterMap g.lookup))
        (mkSortedSet (seeds.filterMap g.lookup))
        (sorted_mkSortedSet _)
      have hbound := bfsLoop_result_bounded g.edges maxNodes g.nodes.length
        hedge depth (mkSortedSet (seeds.filterMap g.lookup))
        (mkSortedSet (seeds.filterMap g.lookup))
        (mkSortedSet (seeds.filterMap g.lookup)) hseedbound
      have hlen : (bfsLoop g.edges maxNodes depth
          (mkSortedSet (seeds.filterMap g.lookup))
          (mkSortedSet (seeds.filterMap g.lookup))
          (mkSortedSet (seeds.filterMap g.lookup))).length ≤ g.nodes.length :=
        sorted_length_le hsorted hbound
      have hcount : (bfsLoop g.edges maxNodes depth
          (mkSortedSet (seeds.filterMap g.lookup))
          (mkSortedSet (seeds.filterMap g.lookup))
          (mkSortedSet (seeds.filterMap g.lookup))).countP
            (fun i => g.nodes[i]?.isSome) ≤ maxNodes :=
        le_trans (List.countP_le_length _) (le_trans hlen hcap)
      unfold GraphIndex.neighbors
      rw [if_neg hguard]
      dsimp only
      rw [if_neg hne]
      exact takeNodes_mem g.nodes _ maxNodes hcount i s hibfs
        (lookupIdx_get? hcase)

/-- C8 witness: cap bound and seed inclusion at the chain graph. -/
theorem C8_neighbors_witness :
    ((1 : ℕ) ≤ 1 ∧ (∃ s ∈ ["a"], chainGraph.lookup s ≠ none) ∧
      (chainGraph.neighbors ["a"] 1 2).length ≤ 2) ∧
    ((∀ e ∈ chainGraph.edges, e.2.1 < chainGraph.nodes.length) ∧
      chainGraph.nodes.length ≤ 50 ∧
      "a" ∈ chainGraph.neighbors ["a"] 3 50) :=
  ⟨⟨by decide, by decide,
      C8_neighbors.2.2.1 chainGraph ["a"] 1 2 (by decide)
        ⟨"a", by decide, by decide⟩⟩,
    ⟨by decide, by decide,
      C8_neighbors.2.2.2.2 chainGraph ["a"] 3 50 (by decide) (by decide)
        (by decide) "a" (by decide) (by decide)⟩⟩

/-! ### src/ai/patches.py : unified diff application

The diff engine works line-wise on strings.  Python str.splitlines is
modeled for newline-delimited text (the only line separator occurring in
diffs here).  The outer while loop of apply_unified_diff advances its index
only inside the `if lines[i].startswith('+++ ')` branch — there is no else
increment — so the embedding gives that loop a fuel parameter; one unit of
fuel is one iteration of the while loop, and an all-fuel .timeout result
states that the Python loop runs forever. -/

/-- str.splitlines for newline-separated text: every newline terminates a
line; a final fragment is kept only if nonempty. -/
def splitlinesAux (acc : List Char) : List Char → List (List Char)
  | [] => if acc = [] then [] else [acc.reverse]
  | c :: cs =>
    if c = '\n' then acc.reverse :: splitlinesAux [] cs
    else splitlinesAux (c :: acc) cs

/-- splitlines on strings. -/
def splitlines (s : String) : List String :=
  (splitlinesAux [] s.toList).map String.mk

/-- '\n'.join. -/
def joinN (lines : List String) : String :=
  String.mk (List.intercalate ['\n'] (lines.map String.toList))

/-- str.startswith. -/
def lineStarts (l : String) (pre : String) : Bool :=
  pre.toList.isPrefixOf l.toList

/-- str.strip (ASCII whitespace). -/
def trimL (l : List Char) : List Char :=
  ((l.dropWhile Char.isWhitespace).reverse.dropWhile Char.isWhitespace).reverse

/-- Digit run to number. -/
def digitsToNat (ds : List Char) : ℕ :=
  ds.foldl (fun n c => n * 10 + (c.toNat - '0'.toNat)) 0

/-- Parser for the hunk header regex @@ -(d+),?(d*) \+(d+),?(d*) @@ as used
by re.match (anchored at the start, trailing text allowed).  Returns
(old_start, old_len?, new_start, new_len?), the length groups none when
empty (the caller defaults them to 1, patches.py lines 173-176). -/
def parseHunkHeader (line : String) : Option (ℕ × Option ℕ × ℕ × Option ℕ) :=
  let l := line.toList
  if ("@@ -".toList).isPrefixOf l then
    let r0 := l.drop 4
    let d1 := r0.takeWhile Char.isDigit
    let r1 := r0.dropWhile Char.isDigit
    if d1 = [] then none
    else
      let r2 := if r1.take 1 = [','] then r1.drop 1 else r1
      let d2 := r2.takeWhile Char.isDigit
      let r3 := r2.dropWhile Char.isDigit
      if (" +".toList).isPrefixOf r3 then
        let r4 := r3.drop 2
        let d3 := r4.takeWhile Char.isDigit
        let r5 := r4.dropWhile Char.isDigit
        if d3 = [] then none
        else
          let r6 := if r5.take 1 = [','] then r5.drop 1 else r5
          let d4 := r6.takeWhile Char.isDigit
          let r7 := r6.dropWhile Char.isDigit
          if (" @@".toList).isPrefixOf r7 then
            some (digitsToNat d1,
              (if d2 = [] then none else some (digitsToNat d2)),
              digitsToNat d3,
              (if d4 = [] then none else some (digitsToNat d4)))
          else none
      else none
  else none

/-- First index of a substring (Python `in` and str.replace search). -/
def subFind (needle : List Char) : List Char → Option ℕ
  | [] => if needle.isEmpty then some 0 else none
  | c :: cs =>
    if needle.isPrefixOf (c :: cs) then some 0
    else (subFind needle cs).map (· + 1)

/-- str.replace(old, new, 1): replace the first occurrence only. -/
def replaceFirst (hay old new : List Char) : List Char :=
  match subFind old hay with
  | none => hay
  | some i => hay.take i ++ new ++ hay.drop (i + old.length)

/-- Clamp a Python slice index (negative indices count from the end). -/
def pyClamp (len : ℕ) (i : ℤ) : ℕ :=
  if i < 0 then (len + i).toNat else min i.toNat len

/-- Python l[:i]. -/
def pyTake (l : List String) (i : ℤ) : List String :=
  l.take (pyClamp l.length i)

/-- Python l[i:]. -/
def pyDrop (l : List String) (i : ℤ) : List String :=
  l.drop (pyClamp l.length i)

/-- Dict lookup on an association list with unique keys. -/
def dictGet (m : List (String × String)) (k : String) : Option String :=
  (m.find? (fun p => p.1 == k)).map (·.2)

/-- Dict assignment: replace the value of k or append a new binding. -/
def dictSet (m : List (String × String)) (k v : String) :
    List (String × String) :=
  match m with
  | [] => [(k, v)]
  | (k', v') :: rest =>
    if k' = k then (k, v) :: rest else (k', v') :: dictSet rest k v

/-- Outcome of apply_unified_diff: .timeout means the fuel ran out (with
unbounded fuel this is nontermination of the Python loop), .invalidDiff is
the raised ValueError for a malformed hunk header, .ok is a normal
return. -/
inductive ApplyResult
  | timeout
  | invalidDiff (header : String)
  | ok (updated : List (String × String))
deriving DecidableEq, Repr

/-- The context/removed/added line extraction of a hunk (patches.py lines
188-197): returns (old_lines, new_lines). -/
def collectOldNew : List String → List String × List String
  | [] => ([], [])
  | l :: ls =>
    let (o, n) := collectOldNew ls
    let tail := String.mk (l.toList.drop 1)
    if lineStarts l " " then (tail :: o, tail :: n)
    else if lineStarts l "-" then (tail :: o, n)
    else if lineStarts l "+" then (o, tail :: n)
    else (o, n)

/-- Application of one collected hunk to the named file (patches.py lines
183-212): verbatim first-occurrence replacement of the old text when it is
a substring, otherwise an offset line splice with Python slice semantics;
when the offset is past the end, the file is left untouched. -/
def applyHunkTo (m1 : List (String × String)) (filename : String)
    (oldStart oldLen : ℕ) (hunkLines : List String) :
    List (String × String) :=
  let text := (dictGet m1 filename).getD ""
  let textLines := splitlines text
  let (oldLines, newLines) := collectOldNew hunkLines
  let oldText := joinN oldLines
  let newText := joinN newLines
  if (subFind oldText.toList text.toList).isSome then
    dictSet m1 filename
      (String.mk (replaceFirst text.toList oldText.toList newText.toList))
  else
    let startIdx : ℤ := (oldStart : ℤ) - 1
    let endIdx : ℤ := startIdx + oldLen
    if startIdx < (textLines.length : ℤ) then
      dictSet m1 filename
        (joinN (pyTake textLines startIdx ++ newLines ++ pyDrop textLines endIdx))
    else m1

/-- The while loop of apply_unified_diff (patches.py lines 158-212), on the
suffix of the diff lines still to be processed.  The first equation is the
loop exit (index past the end); the branch for a line that does not start
with '+++ ' makes no progress, faithfully to the missing index increment in
the source, and consumes one unit of fuel like every other iteration. -/
def applyLoop : ℕ → List String → List (String × String) → ApplyResult
  | _, [], m => .ok m
  | 0, _ :: _, _ => .timeout
  | fuel + 1, line :: rest, m =>
    if lineStarts line "+++ " then
      let filename := String.mk (trimL (line.toList.drop 4))
      let m1 := if dictGet m filename = none then dictSet m filename "" else m
      let rest2 := rest.dropWhile (fun l => !(lineStarts l "@@"))
      match rest2 with
      | [] => .ok m1
      | hline :: rest3 =>
        match parseHunkHeader hline with
        | none => .invalidDiff hline
        | some (oldStart, oldLenOpt, _, _) =>
          let hunkLines := rest3.takeWhile
            (fun l => !(lineStarts l "@@") && !(lineStarts l "+++"))
          let rest4 := rest3.dropWhile
            (fun l => !(lineStarts l "@@") && !(lineStarts l "+++"))
          let m2 := applyHunkTo m1 filename oldStart (oldLenOpt.getD 1) hunkLines
          applyLoop fuel rest4 m2
    else applyLoop fuel (line :: rest) m

/-- apply_unified_diff (patches.py lines 141-214). -/
def applyUnifiedDiff (fuel : ℕ) (m : List (String × String)) (diff : String) :
    ApplyResult :=
  applyLoop fuel (splitlines diff) m

/-- A hunk record as produced by split_hunks (patches.py lines 89-94). -/
structure HunkRec where
  filename : String
  startLine : ℕ
  content : String
  selected : Bool
deriving DecidableEq, Repr

/-- The minimal single-hunk diff synthesized per selected hunk
(patches.py lines 122-126). -/
def miniDiff (h : HunkRec) : String :=
  "--- a/" ++ h.filename ++ "\n+++ b/" ++ h.filename ++ "\n@@ -"
    ++ toString h.startLine ++ ",0 +" ++ toString h.startLine ++ ",0 @@\n"
    ++ h.content ++ "\n"

/-- The application loop of apply_selected_hunks (patches.py lines
129-136): apply each mini diff, skipping (on the raised error) any hunk
that fails to apply; nontermination of the inner call propagates. -/
def applyMiniDiffs (fuel : ℕ) : List HunkRec → List (String × String) →
    ApplyResult
  | [], m => .ok m
  | h :: rest, m =>
    match applyUnifiedDiff fuel m (miniDiff h) with
    | .timeout => .timeout
    | .invalidDiff _ => applyMiniDiffs fuel rest m
    | .ok m' => applyMiniDiffs fuel rest m'

/-- apply_selected_hunks (patches.py lines 103-138). -/
def applySelectedHunks (fuel : ℕ) (m : List (String × String))
    (hunks : List HunkRec) : ApplyResult :=
  applyMiniDiffs fuel (hunks.filter (·.selected)) m

/-- A line that does not start with '+++ ' at the front of the remaining
diff keeps the loop in place for every amount of fuel: the Python while
loop never terminates from such a state. -/
theorem applyLoop_stuck {l : String} (rest : List String)
    (hm : lineStarts l "+++ " = false) :
    ∀ (fuel : ℕ) (m : List (String × String)),
      applyLoop fuel (l :: rest) m = .timeout := by
  intro fuel
  induction fuel with
  | zero => intro m; rfl
  | succ n ih =>
    intro m
    have : applyLoop (n + 1) (l :: rest) m = applyLoop n (l :: rest) m := by
      simp [applyLoop, hm]
    rw [this]
    exact ih m

/-- A standard unified diff between "line1\nline2\n" and
"line1\nchanged\n", in the format produced by difflib.unified_diff (the
shared renderer in src/codemods/base.py): header lines '--- a/…' and
'+++ b/…' followed by one hunk. -/
def diffC1 : String :=
  "--- a/file.txt\n+++ b/file.txt\n@@ -1,2 +1,2 @@\n line1\n-line2\n+changed"

/-- C1: apply_unified_diff does not satisfy the round-trip property; it
never returns on a computed unified diff.  The outer while loop advances
its index only when the current line starts with '+++ ', so the leading
'--- ' header line of every computed diff (first conjunct), and equally the
second '@@' hunk of a multi-hunk file section even in the header-less
format the repository tests use (second conjunct), leave the loop running
forever — modeled as .timeout for every fuel.  The third conjunct checks
the embedding against the repository test suite: a single-hunk '+++ '-led
diff is applied correctly. -/
theorem C1_apply_unified_diff_diverges :
    (∀ fuel : ℕ,
      applyUnifiedDiff fuel [("file.txt", "line1\nline2\n")] diffC1
        = .timeout) ∧
    (∀ fuel : ℕ,
      applyUnifiedDiff fuel [("file.txt", "line1\nline2\nline3")]
        "+++ file.txt\n@@ -1,1 +1,1 @@\n-line1\n+l1\n@@ -3,1 +3,1 @@\n-line3\n+l3"
        = .timeout) ∧
    (applyUnifiedDiff 10 [("file.txt", "line1\nline2\nline3")]
        "+++ file.txt\n@@ -1,3 +1,4 @@\n line1\n line2\n+new line\n line3\n"
      = .ok [("file.txt", "line1\nline2\nnew line\nline3")]) := by
  refine ⟨?_, ?_, by decide⟩
  · intro fuel
    show applyLoop fuel ("--- a/file.txt" ::
      ["+++ b/file.txt", "@@ -1,2 +1,2 @@", " line1", "-line2", "+changed"])
      [("file.txt", "line1\nline2\n")] = .timeout
    exact applyLoop_stuck _ (by decide) fuel _
  · intro fuel
    cases fuel with
    | zero => rfl
    | succ n =>
      have hstep : applyUnifiedDiff (n + 1) [("file.txt", "line1\nline2\nline3")]
          "+++ file.txt\n@@ -1,1 +1,1 @@\n-line1\n+l1\n@@ -3,1 +3,1 @@\n-line3\n+l3"
          = applyLoop n ["@@ -3,1 +3,1 @@", "-line3", "+l3"]
            [("file.txt", "l1\nline2\nline3")] := rfl
      rw [hstep]
      exact applyLoop_stuck _ (by decide) n _

/-- A selected hunk for file.txt, as produced by split_hunks. -/
def hunkC9 : HunkRec := ⟨"file.txt", 1, " line1\n+added", true⟩

/-- C9: apply_selected_hunks does not apply the selected hunks and skip
failures; with any selected hunk it never returns.  The mini diff it
synthesizes starts with a '--- a/…' line, on which apply_unified_diff loops
forever (see C1), and the per-hunk except clause cannot catch
nontermination — modeled as .timeout for every fuel.  With no selected
hunk, the input map is returned unchanged. -/
theorem C9_apply_selected_hunks_diverges :
    (∀ fuel : ℕ,
      applySelectedHunks fuel [("file.txt", "line1\nline2")] [hunkC9]
        = .timeout) ∧
    (∀ (fuel : ℕ) (m : List (String × String)),
      applySelectedHunks fuel m [⟨"file.txt", 1, " line1\n+added", false⟩]
        = .ok m) := by
  constructor
  · intro fuel
    have hdiff : ∀ (f : ℕ) (m : List (String × String)),
        applyUnifiedDiff f m (miniDiff hunkC9) = .timeout := by
      intro f m
      show applyLoop f ("--- a/file.txt" ::
        ["+++ b/file.txt", "@@ -1,0 +1,0 @@", " line1", "+added"]) m
        = .timeout
      exact applyLoop_stuck _ (by decide) f m
    show applyMiniDiffs fuel [hunkC9] [("file.txt", "line1\nline2")]
      = .timeout
    rw [applyMiniDiffs, hdiff]
  · intro fuel m
    show applyMiniDiffs fuel [] m = .ok m
    rfl

/-! ### src/ai/plan_executor.py : plan validation and apply_plan

The git working tree, branches, and stash are modeled as an explicit
GitState; outcomes of the git subprocess calls issued on the failure-free
path (stash push on a dirty tree, checkout -b of a fresh branch name,
add/commit) are modeled as succeeding on a valid repository, and every
issued mutating git command is recorded in an action trace.  time.time()
is the `timestamp` parameter; the test runner outcome is the `testsOk`
parameter.  graphlib.TopologicalSorter is an external dependency: its
prepare() raises CycleError (a ValueError) exactly when the dependency
graph has a directed cycle, which is modeled by the executable Kahn
elimination `hasCycle` below and proved equivalent to the relational
`HasCycleProp`. -/

/-- A plan step (planner.py PlanStep); constraints is the optional dict,
depends_on the list of step indices this step depends on. -/
structure PlanStep where
  file : String
  intent : String
  explanation : String
  constraints : List (String × String)
  dependsOn : List ℕ
deriving DecidableEq, Repr

/-- A plan (planner.py Plan). -/
structure Plan where
  title : String
  rationale : String
  steps : List PlanStep
  createdAt : ℚ
  planId : String
deriving DecidableEq, Repr

/-- The dependency lists of the plan steps, in step order. -/
def planDeps (p : Plan) : List (List ℕ) := p.steps.map (·.dependsOn)

/-- The predecessors of node i: the declared dependency list for a step
index, empty for a node that only occurs as somebody's predecessor. -/
def depsOf (deps : List (List ℕ)) (i : ℕ) : List ℕ := deps.getD i []

/-- All nodes of the dependency graph: every step index and every declared
predecessor (TopologicalSorter.add introduces both). -/
def kahnNodes (deps : List (List ℕ)) : List ℕ :=
  mkSortedSet (List.range deps.length ++ deps.flatten)

/-- One round of Kahn elimination: keep the nodes that still have an
uneliminated predecessor. -/
def kahnStep (deps : List (List ℕ)) (remaining : List ℕ) : List ℕ :=
  remaining.filter (fun i => (depsOf deps i).any (fun d => remaining.contains d))

/-- Iterated elimination. -/
def kahnIter (deps : List (List ℕ)) : ℕ → List ℕ → List ℕ
  | 0, r => r
  | k + 1, r => kahnIter deps k (kahnStep deps r)

/-- Cycle detection: after as many rounds as there are nodes, an acyclic
graph is fully eliminated; leftovers mean a cycle (the behavior of
TopologicalSorter.prepare raising CycleError). -/
def hasCycle (deps : List (List ℕ)) : Bool :=
  !(kahnIter deps (kahnNodes deps).length (kahnNodes deps)).isEmpty

/-- A directed cycle in the dependency graph: a closed walk of positive
length following edges from a node into a node that depends on it. -/
def HasCycleProp (deps : List (List ℕ)) : Prop :=
  ∃ (x : ℕ → ℕ) (L : ℕ), 0 < L ∧ x L = x 0 ∧
    ∀ k < L, x k ∈ depsOf deps (x (k + 1))

/-- len(set(step.file for step in steps)). -/
def distinctFiles (steps : List PlanStep) : ℕ :=
  (steps.map (·.file)).dedup.length

/-- _validate_plan (plan_executor.py lines 224-241): no dependency cycle
over all plan steps, and the number of distinct files among the steps to
apply within the planner_max_files limit. -/
def validatePlan (maxFiles : ℕ) (plan : Plan) (steps : List PlanStep) : Bool :=
  !hasCycle (planDeps plan) && decide (distinctFiles steps ≤ maxFiles)

/-- _estimate_changed_lines (plan_executor.py lines 413-416): the
placeholder constant 10. -/
def estimateChangedLines (_ : PlanStep) : ℕ := 10

/-- The planner-related configuration fields used by the executor, with
their compiled-in defaults in defaultPlannerConfig. -/
structure PlannerConfig where
  plannerAutostash : Bool
  plannerMaxFiles : ℕ
  plannerMaxTotalChangedLines : ℕ
  plannerBranchPfx : String
  plannerCheckpointCommitPerFile : Bool
  plannerRequireGreenTests : Bool
deriving DecidableEq, Repr

/-- The defaults from core/config.py. -/
def defaultPlannerConfig : PlannerConfig :=
  ⟨true, 20, 800, "ai/plan-", true, false⟩

/-- The git-visible state of the repository. -/
structure GitState where
  isRepo : Bool
  currentBranch : Option String
  headCommit : Option String
  dirty : Bool
  stashes : List String
  branches : List String
  commitCount : ℕ
deriving DecidableEq, Repr

/-- Mutating git commands issued by the executor. -/
inductive GitAction
  | stashPush (msg : String)
  | createBranch (name : String)
  | commitCmd (msg : String)
  | resetHard
deriving DecidableEq, Repr

/-- The steps selected for application:
`[plan.steps[i] for i in (selected_steps or range(len(plan.steps)))]`
(an empty selection list is falsy in Python and means all steps; indices
are taken in range, as they are for every plan the executor accepts). -/
def stepsToApply (plan : Plan) (selected : Option (List ℕ)) : List PlanStep :=
  match selected with
  | some idxs =>
    if idxs = [] then plan.steps else idxs.filterMap (plan.steps.get? ·)
  | none => plan.steps

/-- The step indices handed to _apply_steps. -/
def selIdxs (plan : Plan) (selected : Option (List ℕ)) : List ℕ :=
  match selected with
  | some idxs => if idxs = [] then List.range plan.steps.length else idxs
  | none => List.range plan.steps.length

/-- Result of _preflight: the success flag, the error message, the
(branch_name, original_branch, original_head, autostash_id) tuple, and the
git state and action trace after the preflight ran. -/
structure PreflightOut where
  okFlag : Bool
  errMsg : Option String
  info : Option (String × String × String × Option String)
  state : GitState
  actions : List GitAction
deriving DecidableEq, Repr

/-- _preflight (plan_executor.py lines 177-222): repo check, branch/HEAD
detection, dirty-tree handling with optional autostash, plan validation,
size estimate, branch-name generation — in source order. -/
def preflight (cfg : PlannerConfig) (plan : Plan) (selected : Option (List ℕ))
    (timestamp : ℕ) (st : GitState) : PreflightOut :=
  if st.isRepo = false then
    ⟨false, some "Not a git repository", none, st, []⟩
  else
    match st.currentBranch, st.headCommit with
    | none, _ => ⟨false, some "Cannot determine current branch or HEAD", none, st, []⟩
    | _, none => ⟨false, some "Cannot determine current branch or HEAD", none, st, []⟩
    | some ob, some oh =>
      if st.dirty ∧ cfg.plannerAutostash = false then
        ⟨false, some "Working tree is dirty and autostash is disabled", none, st, []⟩
      else
        let stashMsg := "cli_ai_coder autostash " ++ toString timestamp
        let st1 := if st.dirty then
            { st with dirty := false, stashes := stashMsg :: st.stashes }
          else st
        let acts1 : List GitAction :=
          if st.dirty then [.stashPush stashMsg] else []
        let autostashId : Option String :=
          if st.dirty then some "stash@\x7b0\x7d" else none
        let steps := stepsToApply plan selected
        if validatePlan cfg.plannerMaxFiles plan steps = false then
          ⟨false, some "Plan validation failed", none, st1, acts1⟩
        else if cfg.plannerMaxTotalChangedLines <
            (steps.map estimateChangedLines).sum then
          ⟨false, some "Estimated changes exceed limit", none, st1, acts1⟩
        else
          ⟨true, none,
            some (cfg.plannerBranchPfx ++ toString timestamp, ob, oh, autostashId),
            st1, acts1⟩

/-- _apply_single_step (plan_executor.py lines 296-325): create and modify
are placeholders reporting success, delete succeeds, rename succeeds
exactly when constraints carry a new_name, anything else fails. -/
def applySingleStepOk (step : PlanStep) : Bool :=
  if step.intent = "create" then true
  else if step.intent = "delete" then true
  else if step.intent = "rename" then
    (step.constraints.find? (fun p => p.1 == "new_name")).isSome
  else if step.intent = "modify" then true
  else false

/-- A synthetic commit id for the n-th commit made in this session. -/
def mkSha (n : ℕ) : String := "sha" ++ toString n

/-- _apply_steps (plan_executor.py lines 247-294) for the per-file
checkpoint-commit loop: apply each step; on step failure revert the last
commit (when any) and stop; on success commit the file when configured,
and when green tests are required and fail, revert and stop. -/
def applySteps (cfg : PlannerConfig) (testsOk : Bool) (plan : Plan) :
    List ℕ → GitState → List String → List PlanStep → List GitAction →
    (List String × List PlanStep × GitState × List GitAction)
  | [], st, commits, applied, acts =>
    if cfg.plannerCheckpointCommitPerFile = false ∧ applied ≠ [] then
      let msg := "Apply plan " ++ plan.planId ++ ": " ++ plan.title
      let st1 := { st with commitCount := st.commitCount + 1 }
      (commits ++ [mkSha st1.commitCount], applied, st1, acts ++ [.commitCmd msg])
    else (commits, applied, st, acts)
  | idx :: rest, st, commits, applied, acts =>
    match plan.steps.get? idx with
    | none =>
      if commits ≠ [] then
        (commits, applied, { st with commitCount := st.commitCount - 1 },
          acts ++ [.resetHard])
      else (commits, applied, st, acts)
    | some step =>
      if applySingleStepOk step = false then
        if commits ≠ [] then
          (commits, applied, { st with commitCount := st.commitCount - 1 },
            acts ++ [.resetHard])
        else (commits, applied, st, acts)
      else
        let applied1 := applied ++ [step]
        let (st1, commits1, acts1) :=
          if cfg.plannerCheckpointCommitPerFile then
            let msg := step.intent ++ ": " ++ step.file ++ " — " ++ step.explanation
            let stc := { st with commitCount := st.commitCount + 1 }
            (stc, commits ++ [mkSha stc.commitCount], acts ++ [.commitCmd msg])
          else (st, commits, acts)
        if cfg.plannerRequireGreenTests ∧ testsOk = false then
          if commits1 ≠ [] then
            (commits1.dropLast, applied1,
              { st1 with commitCount := st1.commitCount - 1 },
              acts1 ++ [.resetHard])
          else (commits1, applied1, st1, acts1)
        else applySteps cfg testsOk plan rest st1 commits1 applied1 acts1

/-- apply_plan (plan_executor.py lines 54-98): preflight, branch creation,
step application, finalization.  Returns (success, message, final git
state, issued git actions). -/
def applyPlanCont (cfg : PlannerConfig) (testsOk : Bool) (plan : Plan)
    (selected : Option (List ℕ)) (pf : PreflightOut) :
    Bool × String × GitState × List GitAction :=
  if pf.okFlag = false then
    (false, (pf.errMsg.getD "Preflight failed"), pf.state, pf.actions)
  else
    match pf.info with
    | none => (false, "Preflight failed", pf.state, pf.actions)
    | some (branchName, _, _, _) =>
      if branchName ∈ pf.state.branches then
        (false, "Failed to create branch " ++ branchName, pf.state, pf.actions)
      else
        let st2 := { pf.state with
          branches := branchName :: pf.state.branches
          currentBranch := some branchName }
        let r := applySteps cfg testsOk plan (selIdxs plan selected) st2 [] [] []
        (true, "Plan " ++ plan.planId ++ " applied successfully", r.2.2.1,
          pf.actions ++ [.createBranch branchName] ++ r.2.2.2)

/-- apply_plan as the composition of preflight and the rest. -/
def applyPlan (cfg : PlannerConfig) (testsOk : Bool) (plan : Plan)
    (selected : Option (List ℕ)) (timestamp : ℕ) (st : GitState) :
    Bool × String × GitState × List GitAction :=
  applyPlanCont cfg testsOk plan selected (preflight cfg plan selected timestamp st)

theorem mem_kahnStep {deps : List (List ℕ)} {r : List ℕ} {i : ℕ} :
    i ∈ kahnStep deps r ↔ i ∈ r ∧ ∃ d ∈ depsOf deps i, d ∈ r := by
  unfold kahnStep
  rw [List.mem_filter]
  simp [List.any_eq_true]

theorem kahnIter_fixpoint {deps : List (List ℕ)} {r : List ℕ}
    (h : kahnStep deps r = r) : ∀ m, kahnIter deps m r = r := by
  intro m
  induction m with
  | zero => rfl
  | succ n ih =>
    show kahnIter deps n (kahnStep deps r) = r
    rw [h]
    exact ih

theorem kahnIter_progress (deps : List (List ℕ)) :
    ∀ (m : ℕ) (r : List ℕ),
      kahnStep deps (kahnIter deps m r) = kahnIter deps m r ∨
      (kahnIter deps m r).length + m ≤ r.length := by
  intro m
  induction m with
  | zero => intro r; right; simp [kahnIter]
  | succ n ih =>
    intro r
    by_cases hfix : kahnStep deps r = r
    · left
      rw [kahnIter_fixpoint hfix (n + 1), hfix]
    · have hlt : (kahnStep deps r).length < r.length := by
        have hsub : List.Sublist (kahnStep deps r) r := List.filter_sublist _
        rcases lt_or_eq_of_le hsub.length_le with h | h
        · exact h
        · exact absurd (hsub.eq_of_length h) hfix
      rcases ih (kahnStep deps r) with h | h
      · left
        exact h
      · right
        have hgoal : (kahnIter deps n (kahnStep deps r)).length + n ≤
            (kahnStep deps r).length := h
        show (kahnIter deps n (kahnStep deps r)).length + (n + 1) ≤ r.length
        omega

theorem depsOf_ne_nil_lt {deps : List (List ℕ)} {j : ℕ}
    (h : depsOf deps j ≠ []) : j < deps.length := by
  by_contra hge
  exact h (List.getD_eq_default _ _ (by omega))

/-- Any directed cycle keeps its vertices alive through every elimination
round, so the detector reports it. -/
theorem hasCycle_of_prop {deps : List (List ℕ)} (h : HasCycleProp deps) :
    hasCycle deps = true := by
  obtain ⟨x, L, hL, hxL, hstep⟩ := h
  have hnodes : ∀ k, k ≤ L → x k ∈ kahnNodes deps := by
    have hpos : ∀ k, 1 ≤ k → k ≤ L → x k ∈ kahnNodes deps := by
      intro k h1 h2
      have hmem : x (k - 1) ∈ depsOf deps (x k) := by
        have := hstep (k - 1) (by omega)
        rwa [show k - 1 + 1 = k by omega] at this
      have hlt : x k < deps.length :=
        depsOf_ne_nil_lt (List.ne_nil_of_mem hmem)
      exact mem_mkSortedSet_of_mem
        (List.mem_append_left _ (List.mem_range.mpr hlt))
    intro k hk
    rcases Nat.eq_zero_or_pos k with rfl | h1
    · rw [← hxL]
      exact hpos L hL (le_refl L)
    · exact hpos k h1 hk
  have hinv : ∀ r : List ℕ, (∀ k ≤ L, x k ∈ r) →
      ∀ k ≤ L, x k ∈ kahnStep deps r := by
    intro r hr k hk
    refine mem_kahnStep.mpr ⟨hr k hk, ?_⟩
    rcases Nat.eq_zero_or_pos k with rfl | hpos
    · refine ⟨x (L - 1), ?_, hr (L - 1) (by omega)⟩
      have := hstep (L - 1) (by omega)
      rwa [show L - 1 + 1 = L by omega, hxL] at this
    · refine ⟨x (k - 1), ?_, hr (k - 1) (by omega)⟩
      have := hstep (k - 1) (by omega)
      rwa [show k - 1 + 1 = k by omega] at this
  have hiter : ∀ (m : ℕ) (r : List ℕ), (∀ k ≤ L, x k ∈ r) →
      ∀ k ≤ L, x k ∈ kahnIter deps m r := by
    intro m
    induction m with
    | zero => intro r hr; exact hr
    | succ n ih =>
      intro r hr
      exact ih _ (hinv r hr)
  have hx1 : x 1 ∈ kahnIter deps (kahnNodes deps).length (kahnNodes deps) :=
    hiter _ _ hnodes 1 (by omega)
  have hne : kahnIter deps (kahnNodes deps).length (kahnNodes deps) ≠ [] :=
    List.ne_nil_of_mem hx1
  unfold hasCycle
  simp [List.isEmpty_iff, hne]

theorem cycle_of_repeat {deps : List (List ℕ)} {r : List ℕ}
    (z : ℕ → {v // v ∈ r})
    (hz : ∀ n, (z (n + 1)).val ∈ depsOf deps (z n).val)
    (a b : ℕ) (hab : a < b) (heq : (z a).val = (z b).val) :
    HasCycleProp deps := by
  refine ⟨fun j => (z (b - j)).val, b - a, by omega, ?_, ?_⟩
  · show (z (b - (b - a))).val = (z (b - 0)).val
    rw [show b - (b - a) = a by omega, show b - 0 = b by omega]
    exact heq
  · intro k hk
    show (z (b - k)).val ∈ depsOf deps (z (b - (k + 1))).val
    have h1 : b - (k + 1) + 1 = b - k := by omega
    have := hz (b - (k + 1))
    rwa [h1] at this

/-- A nonempty fixpoint of the elimination yields a directed cycle. -/
theorem fixpoint_cycle {deps : List (List ℕ)} {r : List ℕ}
    (hfix : kahnStep deps r = r) (hne : r ≠ []) : HasCycleProp deps := by
  have hch : ∀ i ∈ r, ∃ d ∈ r, d ∈ depsOf deps i := by
    intro i hi
    have hi2 : i ∈ kahnStep deps r := by rw [hfix]; exact hi
    rcases mem_kahnStep.mp hi2 with ⟨_, d, hd, hdr⟩
    exact ⟨d, hdr, hd⟩
  obtain ⟨i0, hi0⟩ := List.exists_mem_of_ne_nil r hne
  have hstep : ∀ v : {v // v ∈ r}, ∃ w : {w // w ∈ r},
      w.val ∈ depsOf deps v.val := by
    rintro ⟨v, hv⟩
    rcases hch v hv with ⟨d, hdr, hdd⟩
    exact ⟨⟨d, hdr⟩, hdd⟩
  choose f hf using hstep
  have hz : ∀ n : ℕ, ((f^[n + 1]) ⟨i0, hi0⟩).val ∈
      depsOf deps ((f^[n]) ⟨i0, hi0⟩).val := by
    intro n
    rw [Function.iterate_succ_apply']
    exact hf _
  have hmaps : ∀ n ∈ Finset.range (r.length + 1),
      ((f^[n]) ⟨i0, hi0⟩).val ∈ r.toFinset := by
    intro n _
    exact List.mem_toFinset.mpr ((f^[n]) ⟨i0, hi0⟩).property
  have hcard : r.toFinset.card < (Finset.range (r.length + 1)).card := by
    rw [Finset.card_range]
    have := r.toFinset_card_le
    omega
  obtain ⟨a, _, b, _, hab, heq⟩ :=
    Finset.exists_ne_map_eq_of_card_lt_of_maps_to hcard hmaps
  rcases Nat.lt_or_ge a b with hlt | hge
  · exact cycle_of_repeat (fun n => (f^[n]) ⟨i0, hi0⟩) hz a b hlt heq
  · have hlt : b < a := by omega
    exact cycle_of_repeat (fun n => (f^[n]) ⟨i0, hi0⟩) hz b a hlt heq.symm

/-- The detector is complete: a report means an actual cycle. -/
theorem prop_of_hasCycle {deps : List (List ℕ)} (h : hasCycle deps = true) :
    HasCycleProp deps := by
  unfold hasCycle at h
  have hne : kahnIter deps (kahnNodes deps).length (kahnNodes deps) ≠ [] := by
    intro hnil
    rw [hnil] at h
    simp at h
  rcases kahnIter_progress deps (kahnNodes deps).length (kahnNodes deps) with
    hfix | hlen
  · exact fixpoint_cycle hfix hne
  · exfalso
    have hlenle : (kahnNodes deps).length ≤ (kahnNodes deps).length := le_refl _
    have hzero : (kahnIter deps (kahnNodes deps).length (kahnNodes deps)).length
        = 0 := by omega
    exact hne (List.eq_nil_of_length_eq_zero hzero)

/-- hasCycle decides HasCycleProp. -/
theorem hasCycle_iff {deps : List (List ℕ)} :
    hasCycle deps = true ↔ HasCycleProp deps :=
  ⟨prop_of_hasCycle, hasCycle_of_prop⟩

/-- On a plan with a dependency cycle, every preflight path fails: the
result flag is false, the only possibly issued git command is the
autostash push, and with a clean tree (or autostash disabled) the git
state is untouched. -/
theorem preflight_fails_of_cycle (cfg : PlannerConfig) (plan : Plan)
    (selected : Option (List ℕ)) (ts : ℕ) (st : GitState)
    (h : hasCycle (planDeps plan) = true) :
    (preflight cfg plan selected ts st).okFlag = false ∧
    ((preflight cfg plan selected ts st).actions = [] ∨
      ∃ msg, (preflight cfg plan selected ts st).actions = [.stashPush msg]) ∧
    ((st.dirty = false ∨ cfg.plannerAutostash = false) →
      (preflight cfg plan selected ts st).state = st) := by
  have hval : ∀ steps, validatePlan cfg.plannerMaxFiles plan steps = false := by
    intro steps
    unfold validatePlan
    rw [h]
    rfl
  obtain ⟨ir, cb, hcm, dt, sts, brs, cc⟩ := st
  cases ir
  · exact ⟨rfl, Or.inl rfl, fun _ => rfl⟩
  · cases cb with
    | none => cases hcm <;> exact ⟨rfl, Or.inl rfl, fun _ => rfl⟩
    | some ob =>
      cases hcm with
      | none => exact ⟨rfl, Or.inl rfl, fun _ => rfl⟩
      | some oh =>
        cases dt
        · refine ⟨?_, ?_, ?_⟩
          · simp [preflight, hval]
          · left
            simp [preflight, hval]
          · intro _
            simp [preflight, hval]
        · by_cases hA : cfg.plannerAutostash = false
          · refine ⟨?_, ?_, ?_⟩
            · simp [preflight, hval, hA]
            · left
              simp [preflight, hval, hA]
            · intro _
              simp [preflight, hval, hA]
          · refine ⟨?_, ?_, ?_⟩
            · simp [preflight, hval, hA]
            · right
              refine ⟨"cli_ai_coder autostash " ++ toString ts, ?_⟩
              simp [preflight, hval, hA]
            · intro hcl
              rcases hcl with hcl | hcl
              · simp at hcl
              · exact absurd hcl hA

/-- C2 amended: a plan whose depends_on indices contain a cycle makes
apply_plan fail during preflight validation, with no branch created and no
commit made; the repository state is unchanged when the working tree is
clean or autostash is disabled (with a dirty tree and autostash enabled an
autostash is pushed before validation runs, see the counterexample).  A
plan with an acyclic dependency graph and at most planner_max_files
distinct affected files passes validation. -/
theorem C2_apply_plan :
    (∀ (cfg : PlannerConfig) (testsOk : Bool) (plan : Plan)
        (selected : Option (List ℕ)) (ts : ℕ) (st : GitState),
      HasCycleProp (planDeps plan) →
      (applyPlan cfg testsOk plan selected ts st).1 = false ∧
      (∀ name, GitAction.createBranch name ∉
        (applyPlan cfg testsOk plan selected ts st).2.2.2) ∧
      (∀ msg, GitAction.commitCmd msg ∉
        (applyPlan cfg testsOk plan selected ts st).2.2.2)) ∧
    (∀ (cfg : PlannerConfig) (testsOk : Bool) (plan : Plan)
        (selected : Option (List ℕ)) (ts : ℕ) (st : GitState),
      HasCycleProp (planDeps plan) →
      (st.dirty = false ∨ cfg.plannerAutostash = false) →
      (applyPlan cfg testsOk plan selected ts st).2.2.1 = st) ∧
    (∀ (maxFiles : ℕ) (plan : Plan) (steps : List PlanStep),
      ¬ HasCycleProp (planDeps plan) →
      distinctFiles steps ≤ maxFiles →
      validatePlan maxFiles plan steps = true) := by
  refine ⟨?_, ?_, ?_⟩
  · intro cfg testsOk plan selected ts st hcyc
    have hc : hasCycle (planDeps plan) = true := hasCycle_of_prop hcyc
    obtain ⟨hok, hacts, _⟩ :=
      preflight_fails_of_cycle cfg plan selected ts st hc
    have happ : applyPlan cfg testsOk plan selected ts st =
        (false, ((preflight cfg plan selected ts st).errMsg.getD
          "Preflight failed"),
          (preflight cfg plan selected ts st).state,
          (preflight cfg plan selected ts st).actions) := by
      unfold applyPlan applyPlanCont
      rw [hok]
      simp
    rw [happ]
    refine ⟨rfl, ?_, ?_⟩
    · intro name hmem
      rcases hacts with he | ⟨msg, he⟩ <;> rw [he] at hmem <;> simp at hmem
    · intro cmsg hmem
      rcases hacts with he | ⟨msg, he⟩ <;> rw [he] at hmem <;> simp at hmem
  · intro cfg testsOk plan selected ts st hcyc hclean
    have hc : hasCycle (planDeps plan) = true := hasCycle_of_prop hcyc
    obtain ⟨hok, _, hstate⟩ :=
      preflight_fails_of_cycle cfg plan selected ts st hc
    have happ : applyPlan cfg testsOk plan selected ts st =
        (false, ((preflight cfg plan selected ts st).errMsg.getD
          "Preflight failed"),
          (preflight cfg plan selected ts st).state,
          (preflight cfg plan selected ts st).actions) := by
      unfold applyPlan applyPlanCont
      rw [hok]
      simp
    rw [happ]
    exact hstate hclean
  · intro maxFiles plan steps hnc hfiles
    have hc : hasCycle (planDeps plan) = false := by
      cases hcb : hasCycle (planDeps plan)
      · rfl
      · exact absurd (prop_of_hasCycle hcb) hnc
    unfold validatePlan
    rw [hc]
    simpa using hfiles

/-- The two-step plan in which step 0 depends on step 1 and step 1 depends
on step 0. -/
def cyclicPlan : Plan :=
  ⟨"cycle", "", [⟨"a.py", "modify", "", [], [1]⟩,
    ⟨"b.py", "modify", "", [], [0]⟩], 0, "p1"⟩

/-- An acyclic two-step plan over two files. -/
def acyclicPlan : Plan :=
  ⟨"ok", "", [⟨"a.py", "modify", "", [], []⟩,
    ⟨"b.py", "modify", "", [], [0]⟩], 0, "p2"⟩

/-- A valid repository with a dirty working tree. -/
def dirtyRepo : GitState := ⟨true, some "main", some "h0", true, [], ["main"], 0⟩

/-- The same repository with a clean working tree. -/
def cleanRepo : GitState := ⟨true, some "main", some "h0", false, [], ["main"], 0⟩

/-- C2 counterexample: the claim asserts the repository state is unchanged
when a cyclic plan fails validation, but with a dirty working tree and
autostash enabled (the default) the preflight pushes an autostash before
validation runs, so apply_plan returns failure with a changed repository
state (a new stash, clean tree). -/
theorem C2_apply_plan_counterexample :
    (applyPlan defaultPlannerConfig true cyclicPlan none 100 dirtyRepo).1
      = false ∧
    (applyPlan defaultPlannerConfig true cyclicPlan none 100 dirtyRepo).2.2.1
      ≠ dirtyRepo ∧
    (applyPlan defaultPlannerConfig true cyclicPlan none 100 dirtyRepo).2.2.1.stashes
      ≠ dirtyRepo.stashes := by
  refine ⟨by decide, by decide, by decide⟩

/-- C2 witness: the cyclic plan fails cleanly on a clean repository, and
the acyclic plan passes validation. -/
theorem C2_apply_plan_witness :
    HasCycleProp (planDeps cyclicPlan) ∧
    (applyPlan defaultPlannerConfig true cyclicPlan none 100 cleanRepo).1
      = false ∧
    (applyPlan defaultPlannerConfig true cyclicPlan none 100 cleanRepo).2.2.1
      = cleanRepo ∧
    distinctFiles acyclicPlan.steps ≤ 20 ∧
    validatePlan 20 acyclicPlan acyclicPlan.steps = true := by
  have hcyc : HasCycleProp (planDeps cyclicPlan) :=
    ⟨fun k => k % 2, 2, by decide, by decide, by decide⟩
  have hnc : ¬ HasCycleProp (planDeps acyclicPlan) := fun hp =>
    absurd (hasCycle_of_prop hp) (by decide)
  exact ⟨hcyc,
    (C2_apply_plan.1 defaultPlannerConfig true cyclicPlan none 100 cleanRepo
      hcyc).1,
    C2_apply_plan.2.1 defaultPlannerConfig true cyclicPlan none 100 cleanRepo
      hcyc (Or.inl rfl),
    by decide,
    C2_apply_plan.2.2 20 acyclicPlan acyclicPlan.steps hnc (by decide)⟩

/-! ### src/indexer/embeddings.py : EmbIndex._hash_bow

The fallback embedding tokenizes the lowered text with \b\w+\b, hashes each
word with MD5 (first 8 hex digits read as an integer) into one of 384
buckets, counts, and L2-normalizes when the norm is positive.  MD5 over the
UTF-8 bytes of the word is implemented below over Nat with explicit mod
2^32 arithmetic; the bucket counts are rationals and the final normalized
vector is real-valued (the norm is a square root). -/

/-- Tokenizer for re.findall of \b\w+\b over the lowered text: the maximal
runs of word characters (shared by embeddings.py words extraction and
rerank.py BM25Reranker._tokenize). -/
def tokenizeAux : List Char → List Char → List (List Char)
  | [], acc => if acc.isEmpty then [] else [acc.reverse]
  | c :: cs, acc =>
    if isWordChar c then tokenizeAux cs (c :: acc)
    else if acc.isEmpty then tokenizeAux cs []
    else acc.reverse :: tokenizeAux cs []

/-- Tokenize a lowered character list. -/
def tokenizeL (s : List Char) : List (List Char) :=
  tokenizeAux (s.map Char.toLower) []

/-- Tokenize a string (lowercasing first, as text.lower() does). -/
def tokenize (s : String) : List String :=
  (tokenizeL s.toList).map String.mk

/-- UTF-8 encoding of one character (str.encode). -/
def utf8Char (c : Char) : List ℕ :=
  let n := c.toNat
  if n < 0x80 then [n]
  else if n < 0x800 then [0xC0 ||| (n >>> 6), 0x80 ||| (n &&& 0x3F)]
  else if n < 0x10000 then
    [0xE0 ||| (n >>> 12), 0x80 ||| ((n >>> 6) &&& 0x3F), 0x80 ||| (n &&& 0x3F)]
  else
    [0xF0 ||| (n >>> 18), 0x80 ||| ((n >>> 12) &&& 0x3F),
      0x80 ||| ((n >>> 6) &&& 0x3F), 0x80 ||| (n &&& 0x3F)]

/-- UTF-8 bytes of a word. -/
def utf8Bytes (w : List Char) : List ℕ := (w.map utf8Char).flatten

/-- The 64 MD5 sine constants. -/
def mdK (i : ℕ) : ℕ :=
  [0xd76aa478, 0xe8c7b756, 0x242070db, 0xc1bdceee,
   0xf57c0faf, 0x4787c62a, 0xa8304613, 0xfd469501,
   0x698098d8, 0x8b44f7af, 0xffff5bb1, 0x895cd7be,
   0x6b901122, 0xfd987193, 0xa679438e, 0x49b40821,
   0xf61e2562, 0xc040b340, 0x265e5a51, 0xe9b6c7aa,
   0xd62f105d, 0x02441453, 0xd8a1e681, 0xe7d3fbc8,
   0x21e1cde6, 0xc33707d6, 0xf4d50d87, 0x455a14ed,
   0xa9e3e905, 0xfcefa3f8, 0x676f02d9, 0x8d2a4c8a,
   0xfffa3942, 0x8771f681, 0x6d9d6122, 0xfde5380c,
   0xa4beea44, 0x4bdecfa9, 0xf6bb4b60, 0xbebfbc70,
   0x289b7ec6, 0xeaa127fa, 0xd4ef3085, 0x04881d05,
   0xd9d4d039, 0xe6db99e5, 0x1fa27cf8, 0xc4ac5665,
   0xf4292244, 0x432aff97, 0xab9423a7, 0xfc93a039,
   0x655b59c3, 0x8f0ccc92, 0xffeff47d, 0x85845dd1,
   0x6fa87e4f, 0xfe2ce6e0, 0xa3014314, 0x4e0811a1,
   0xf7537e82, 0xbd3af235, 0x2ad7d2bb, 0xeb86d391].getD i 0

/-- The MD5 per-round left-rotation amounts. -/
def mdS (i : ℕ) : ℕ :=
  [7, 12, 17, 22, 7, 12, 17, 22, 7, 12, 17, 22, 7, 12, 17, 22,
   5, 9, 14, 20, 5, 9, 14, 20, 5, 9, 14, 20, 5, 9, 14, 20,
   4, 11, 16, 23, 4, 11, 16, 23, 4, 11, 16, 23, 4, 11, 16, 23,
   6, 10, 15, 21, 6, 10, 15, 21, 6, 10, 15, 21, 6, 10, 15, 21].getD i 0

/-- 32-bit mask. -/
def mask32 : ℕ := 0xffffffff

/-- 32-bit left rotation. -/
def rotl32 (x s : ℕ) : ℕ := (((x <<< s) % 2 ^ 32) ||| (x >>> (32 - s)))

/-- Little-endian byte decomposition. -/
def leBytes (k n : ℕ) : List ℕ :=
  (List.range k).map fun i => n / 256 ^ i % 256

/-- The j-th little-endian 32-bit word of a 64-byte block. -/
def blockWord (block : List ℕ) (j : ℕ) : ℕ :=
  block.getD (4 * j) 0 + 256 * block.getD (4 * j + 1) 0 +
    65536 * block.getD (4 * j + 2) 0 + 16777216 * block.getD (4 * j + 3) 0

/-- One MD5 round on the register tuple (A, B, C, D). -/
def md5round (M : ℕ → ℕ) (st : ℕ × ℕ × ℕ × ℕ) (i : ℕ) : ℕ × ℕ × ℕ × ℕ :=
  let A := st.1
  let B := st.2.1
  let C := st.2.2.1
  let D := st.2.2.2
  let F :=
    if i < 16 then (B &&& C) ||| ((mask32 ^^^ B) &&& D)
    else if i < 32 then (D &&& B) ||| ((mask32 ^^^ D) &&& C)
    else if i < 48 then B ^^^ C ^^^ D
    else C ^^^ (B ||| (mask32 ^^^ D))
  let g :=
    if i < 16 then i
    else if i < 32 then (5 * i + 1) % 16
    else if i < 48 then (3 * i + 5) % 16
    else (7 * i) % 16
  let Fv := (F + A + mdK i + M g) % 2 ^ 32
  (D, (B + rotl32 Fv (mdS i)) % 2 ^ 32, B, C)

/-- MD5 compression of one 64-byte block. -/
def md5block (st : ℕ × ℕ × ℕ × ℕ) (block : List ℕ) : ℕ × ℕ × ℕ × ℕ :=
  let r := (List.range 64).foldl (md5round (blockWord block)) st
  ((st.1 + r.1) % 2 ^ 32, (st.2.1 + r.2.1) % 2 ^ 32,
    (st.2.2.1 + r.2.2.1) % 2 ^ 32, (st.2.2.2 + r.2.2.2) % 2 ^ 32)

/-- MD5 padding: 0x80, zeros to 56 mod 64, 8-byte little-endian bit
length. -/
def md5pad (msg : List ℕ) : List ℕ :=
  msg ++ 0x80 :: List.replicate ((119 - msg.length % 64) % 64) 0
    ++ leBytes 8 (msg.length * 8)

/-- Split into 64-byte blocks. -/
def chunks64 (l : List ℕ) : List (List ℕ) :=
  if h : l = [] then [] else l.take 64 :: chunks64 (l.drop 64)
termination_by l.length
decreasing_by
  simp only [List.length_drop]
  have hpos : 0 < l.length := List.length_pos.mpr h
  omega

/-- The final A register of the MD5 digest of a byte string. -/
def md5digestA (msg : List ℕ) : ℕ :=
  ((chunks64 (md5pad msg)).foldl md5block
    (0x67452301, 0xefcdab89, 0x98badcfe, 0x10325476)).1

/-- int(hexdigest[:8], 16): the first four digest bytes (the little-endian
encoding of the A register) read big-endian. -/
def byteswap32 (n : ℕ) : ℕ :=
  n % 256 * 16777216 + n / 256 % 256 * 65536 + n / 65536 % 256 * 256 +
    n / 16777216 % 256

/-- The bucket of a word: int(md5(word).hexdigest()[:8], 16) % 384. -/
def mdIndex (w : List Char) : ℕ := byteswap32 (md5digestA (utf8Bytes w)) % 384

/-- vec[idx] += 1.0. -/
def bump (v : List ℚ) (i : ℕ) : List ℚ := v.set i (v.getD i 0 + 1)

/-- The raw 384-bucket counts of the hashed bag of words. -/
def rawCounts (words : List (List Char)) : List ℚ :=
  words.foldl (fun v w => bump v (mdIndex w)) (List.replicate 384 0)

/-- Sum of squares (the square of the L2 norm). -/
def sumSq (v : List ℚ) : ℚ := (v.map fun x => x * x).sum

/-- _hash_bow (embeddings.py lines 109-119): count the hashed words and
L2-normalize only when the norm is positive.  (The square root makes the
normalized vector real-valued, hence this definition is not executable;
all its discrete components above are.) -/
noncomputable def hashBow (s : String) : List ℝ :=
  let v := rawCounts (tokenizeL s.toList)
  let nrm := Real.sqrt ((sumSq v : ℚ) : ℝ)
  if 0 < nrm then v.map (fun q => (Rat.cast q : ℝ) / nrm)
  else v.map (fun q => (Rat.cast q : ℝ))

theorem rawCounts_length (ws : List (List Char)) :
    (rawCounts ws).length = 384 := by
  unfold rawCounts
  suffices hgen : ∀ v : List ℚ,
      (ws.foldl (fun v w => bump v (mdIndex w)) v).length = v.length by
    rw [hgen]
    exact List.length_replicate 384 0
  induction ws with
  | nil => intro v; rfl
  | cons w rest ih =>
    intro v
    simp only [List.foldl_cons]
    rw [ih]
    unfold bump
    exact List.length_set v _ _

theorem getD_zero_nonneg {v : List ℚ} (h : ∀ x ∈ v, 0 ≤ x) (i : ℕ) :
    0 ≤ v.getD i 0 := by
  rw [List.getD_eq_getElem?_getD]
  cases hg : v[i]? with
  | none => simp
  | some a =>
    simp only [Option.getD_some]
    obtain ⟨hlt, hEq⟩ := List.getElem?_eq_some.mp hg
    have hmem : v[i] ∈ v := List.getElem_mem hlt
    rw [hEq] at hmem
    exact h a hmem

theorem rawCounts_nonneg (ws : List (List Char)) :
    ∀ x ∈ rawCounts ws, 0 ≤ x := by
  unfold rawCounts
  suffices hgen : ∀ v : List ℚ, (∀ x ∈ v, 0 ≤ x) →
      ∀ x ∈ ws.foldl (fun v w => bump v (mdIndex w)) v, 0 ≤ x by
    refine hgen _ ?_
    intro x hx
    rw [List.eq_of_mem_replicate hx]
  induction ws with
  | nil => intro v hv; simpa using hv
  | cons w rest ih =>
    intro v hv
    simp only [List.foldl_cons]
    refine ih _ ?_
    intro x hx
    rcases List.mem_or_eq_of_mem_set hx with hx | rfl
    · exact hv x hx
    · have := getD_zero_nonneg hv (mdIndex w)
      linarith

theorem sum_set_rat (v : List ℚ) :
    ∀ (i : ℕ) (a : ℚ), i < v.length →
      (v.set i a).sum = v.sum - v.getD i 0 + a := by
  induction v with
  | nil => intro i a h; simp at h
  | cons y ys ih =>
    intro i a h
    cases i with
    | zero =>
      simp [List.set, List.getD]
      ring
    | succ n =>
      have hn : n < ys.length := by simpa using h
      simp only [List.set, List.sum_cons]
      rw [ih n a hn]
      have hgd : (y :: ys).getD (n + 1) 0 = ys.getD n 0 := by
        simp [List.getD]
      rw [hgd]
      ring

theorem mdIndex_lt (w : List Char) : mdIndex w < 384 :=
  Nat.mod_lt _ (by norm_num)

theorem rawCounts_sum (ws : List (List Char)) :
    (rawCounts ws).sum = ws.length := by
  unfold rawCounts
  suffices hgen : ∀ v : List ℚ, v.length = 384 →
      (ws.foldl (fun v w => bump v (mdIndex w)) v).sum = v.sum + ws.length by
    rw [hgen _ (List.length_replicate 384 0)]
    rw [List.sum_replicate]
    simp
  induction ws with
  | nil => intro v _; simp
  | cons w rest ih =>
    intro v hv
    simp only [List.foldl_cons]
    rw [ih _ (by unfold bump; rw [List.length_set]; exact hv)]
    unfold bump
    rw [sum_set_rat v (mdIndex w) _ (by rw [hv]; exact mdIndex_lt w)]
    simp only [List.length_cons]
    push_cast
    ring

theorem exists_pos_of_rawCounts {ws : List (List Char)} (h : ws ≠ []) :
    ∃ x ∈ rawCounts ws, 0 < x := by
  by_contra hno
  push_neg at hno
  have hzero : ∀ x ∈ rawCounts ws, x = 0 := fun x hx =>
    le_antisymm (hno x hx) (rawCounts_nonneg ws x hx)
  have hsum : (rawCounts ws).sum = 0 := List.sum_eq_zero hzero
  rw [rawCounts_sum] at hsum
  have hlen : ws.length = 0 := by exact_mod_cast hsum
  exact h (List.eq_nil_of_length_eq_zero hlen)

theorem sumSq_pos {v : List ℚ} {x : ℚ} (hx : x ∈ v) (hpos : 0 < x) :
    0 < sumSq v := by
  unfold sumSq
  have hmem : x * x ∈ v.map (fun y => y * y) := List.mem_map.mpr ⟨x, hx, rfl⟩
  have hle : x * x ≤ (v.map fun y => y * y).sum :=
    List.single_le_sum (fun y hy => by
      rcases List.mem_map.mp hy with ⟨z, _, rfl⟩
      exact mul_self_nonneg z) _ hmem
  nlinarith

/-- C10: the hashed bag-of-words fallback embedding is total and
division-guarded: for every text the result has dimension exactly 384; it
is the all-zero vector exactly when the text has no word tokens; and the
L2 norm is positive exactly when some token exists, so the normalization
division only happens with a positive norm. -/
theorem C10_hash_bow (s : String) :
    (hashBow s).length = 384 ∧
    ((∀ x ∈ hashBow s, x = 0) ↔ tokenize s = []) ∧
    (0 < Real.sqrt ((sumSq (rawCounts (tokenizeL s.toList)) : ℚ) : ℝ) ↔
      tokenize s ≠ []) := by
  have htok : tokenize s = [] ↔ tokenizeL s.toList = [] := by
    unfold tokenize
    simp
  have hbow_pos : 0 < Real.sqrt ((sumSq (rawCounts (tokenizeL s.toList)) : ℚ) : ℝ) →
      hashBow s = (rawCounts (tokenizeL s.toList)).map
        (fun q => (Rat.cast q : ℝ) /
          Real.sqrt ((sumSq (rawCounts (tokenizeL s.toList)) : ℚ) : ℝ)) := by
    intro h
    simp only [hashBow]
    rw [if_pos h]
  have hbow_zero : ¬ 0 < Real.sqrt ((sumSq (rawCounts (tokenizeL s.toList)) : ℚ) : ℝ) →
      hashBow s = (rawCounts (tokenizeL s.toList)).map
        (fun q => (Rat.cast q : ℝ)) := by
    intro h
    simp only [hashBow]
    rw [if_neg h]
  by_cases hempty : tokenizeL s.toList = []
  · have hraw : rawCounts (tokenizeL s.toList) = List.replicate 384 0 := by
      rw [hempty]
      rfl
    have hsq : sumSq (rawCounts (tokenizeL s.toList)) = 0 := by
      rw [hraw]
      unfold sumSq
      rw [List.map_replicate, List.sum_replicate]
      simp
    have hnrm : Real.sqrt ((sumSq (rawCounts (tokenizeL s.toList)) : ℚ) : ℝ)
        = 0 := by
      rw [hsq]
      simp
    have hnpos : ¬ 0 < Real.sqrt ((sumSq (rawCounts (tokenizeL s.toList)) : ℚ) : ℝ) := by
      rw [hnrm]
      exact lt_irrefl 0
    refine ⟨?_, ?_, ?_⟩
    · rw [hbow_zero hnpos, List.length_map, rawCounts_length]
    · constructor
      · intro _
        exact htok.mpr hempty
      · intro _ x hx
        rw [hbow_zero hnpos] at hx
        rcases List.mem_map.mp hx with ⟨q, hq, rfl⟩
        rw [hraw] at hq
        rw [List.eq_of_mem_replicate hq]
        exact Rat.cast_zero
    · constructor
      · intro h0
        exact absurd h0 hnpos
      · intro hne
        exact absurd (htok.mpr hempty) hne
  · obtain ⟨x, hxmem, hxpos⟩ := exists_pos_of_rawCounts hempty
    have hsq : 0 < sumSq (rawCounts (tokenizeL s.toList)) :=
      sumSq_pos hxmem hxpos
    have hnrm : 0 < Real.sqrt ((sumSq (rawCounts (tokenizeL s.toList)) : ℚ) : ℝ) :=
      Real.sqrt_pos.mpr (by exact_mod_cast hsq)
    refine ⟨?_, ?_, ?_⟩
    · rw [hbow_pos hnrm, List.length_map, rawCounts_length]
    · constructor
      · intro hall
        exfalso
        have hmem2 : ((Rat.cast x : ℝ) /
            Real.sqrt ((sumSq (rawCounts (tokenizeL s.toList)) : ℚ) : ℝ)) ∈
              hashBow s := by
          rw [hbow_pos hnrm]
          exact List.mem_map.mpr ⟨x, hxmem, rfl⟩
        have hz := hall _ hmem2
        rw [div_eq_zero_iff] at hz
        rcases hz with hz | hz
        · have hx0 : x = 0 := by exact_mod_cast hz
          exact absurd hx0 (ne_of_gt hxpos)
        · exact absurd hz (ne_of_gt hnrm)
      · intro htok0
        exact absurd (htok.mp htok0) hempty
    · exact ⟨fun _ hcontra => hempty (htok.mp hcontra), fun _ => hnrm⟩

/-! ### src/indexer/rerank.py : BM25Reranker

The BM25 scoring of rerank (lines 45-90) with k1 = 3/2 and b = 3/4: all
term statistics are rational; only the idf factor needs the real logarithm.
rerank maps every candidate to its score (the rerank_score field) and then
sorts by score descending; sorting permutes candidates without changing any
assigned score, so the claims below are stated about the assigned
scores. -/

/-- Tokenized document length as a rational. -/
def docLenQ (c : String) : ℚ := ((tokenize c).length : ℚ)

/-- avg_doc_length: the mean tokenized length, 1 for an empty candidate
list (rerank.py line 55). -/
def avgLen (cands : List String) : ℚ :=
  if cands.isEmpty then 1
  else (cands.map docLenQ).sum / (cands.length : ℚ)

/-- Document frequency of a term: how many candidates contain it
(rerank.py lines 58-62). -/
def dfCount (cands : List String) (t : String) : ℕ :=
  (cands.filter fun c => decide (t ∈ tokenize c)).length

/-- The idf ratio (N - df + 0.5)/(df + 0.5). -/
def idfRatio (N df : ℕ) : ℚ :=
  ((N : ℚ) - (df : ℚ) + 1 / 2) / ((df : ℚ) + 1 / 2)

/-- _idf (rerank.py lines 98-103): zero when df = 0, else the natural log
of the idf ratio. -/
noncomputable def idf (N df : ℕ) : ℝ :=
  if df = 0 then 0 else Real.log ((idfRatio N df : ℚ) : ℝ)

/-- The denominator correction k1*(1 - b + b*docLen/avgDocLen). -/
def bm25K (cands : List String) (c : String) : ℚ :=
  3 / 2 * (1 - 3 / 4 + 3 / 4 * (docLenQ c / avgLen cands))

/-- The tf-dependent factor tf*(k1+1)/(tf + K). -/
def bm25RatioQ (cands : List String) (c t : String) : ℚ :=
  ((List.count t (tokenize c) : ℚ) * (3 / 2 + 1)) /
    ((List.count t (tokenize c) : ℚ) + bm25K cands c)

/-- The contribution of one query term to a document score (rerank.py
lines 73-82): zero when the term is absent from the document. -/
noncomputable def bm25TermScore (cands : List String) (c t : String) : ℝ :=
  if List.count t (tokenize c) = 0 then 0
  else idf cands.length (dfCount cands t) * ((bm25RatioQ cands c t : ℚ) : ℝ)

/-- The BM25 rerank_score assigned to candidate c (rerank.py lines 64-86):
the sum of the per-term contributions over the tokenized query (duplicated
query terms count twice, as in the source loop). -/
noncomputable def bm25Score (query : String) (cands : List String)
    (c : String) : ℝ :=
  ((tokenize query).map (bm25TermScore cands c)).sum

/-- The scores rerank assigns to the candidate list, before sorting. -/
noncomputable def rerankScores (query : String) (cands : List String) :
    List ℝ :=
  cands.map (bm25Score query cands)

theorem docLenQ_nonneg (c : String) : 0 ≤ docLenQ c := Nat.cast_nonneg _

theorem docLenQ_one_le {c : String} {t : String} (ht : t ∈ tokenize c) :
    1 ≤ docLenQ c := by
  have hpos : 0 < (tokenize c).length :=
    List.length_pos.mpr (List.ne_nil_of_mem ht)
  unfold docLenQ
  exact_mod_cast hpos

theorem avgLen_pos {cands : List String} {c : String} (hc : c ∈ cands)
    (hlen : 1 ≤ docLenQ c) : 0 < avgLen cands := by
  have hne : cands ≠ [] := List.ne_nil_of_mem hc
  unfold avgLen
  rw [if_neg (by simp [List.isEmpty_iff, hne])]
  apply div_pos
  · have hle : docLenQ c ≤ (cands.map docLenQ).sum :=
      List.single_le_sum (fun x hx => by
        rcases List.mem_map.mp hx with ⟨d, _, rfl⟩
        exact docLenQ_nonneg d) _ (List.mem_map.mpr ⟨c, hc, rfl⟩)
    linarith
  · exact_mod_cast List.length_pos.mpr hne

theorem bm25K_pos {cands : List String} (c : String)
    (havg : 0 < avgLen cands) : 0 < bm25K cands c := by
  unfold bm25K
  have hdl : 0 ≤ docLenQ c / avgLen cands :=
    div_nonneg (docLenQ_nonneg c) havg.le
  nlinarith

theorem bm25RatioQ_nonneg {cands : List String} (c t : String)
    (hK : 0 < bm25K cands c) : 0 ≤ bm25RatioQ cands c t := by
  unfold bm25RatioQ
  have hcnt : (0 : ℚ) ≤ (List.count t (tokenize c) : ℚ) := Nat.cast_nonneg _
  apply div_nonneg
  · nlinarith
  · linarith

theorem bm25RatioQ_mono {cands : List String} {ci cj t : String}
    (hK : 0 < bm25K cands ci) (hKeq : bm25K cands cj = bm25K cands ci)
    (hcnt : List.count t (tokenize cj) ≤ List.count t (tokenize ci)) :
    bm25RatioQ cands cj t ≤ bm25RatioQ cands ci t := by
  unfold bm25RatioQ
  rw [hKeq]
  have hab : (List.count t (tokenize cj) : ℚ) ≤
      (List.count t (tokenize ci) : ℚ) := by exact_mod_cast hcnt
  have ha : (0 : ℚ) ≤ (List.count t (tokenize ci) : ℚ) := Nat.cast_nonneg _
  have hb : (0 : ℚ) ≤ (List.count t (tokenize cj) : ℚ) := Nat.cast_nonneg _
  rw [div_le_div_iff (by linarith) (by linarith)]
  nlinarith

theorem idf_nonneg {N df : ℕ} (hdf : 1 ≤ df) (hN : 2 * df ≤ N) :
    0 ≤ idf N df := by
  unfold idf
  rw [if_neg (by omega)]
  apply Real.log_nonneg
  have h1 : (1 : ℚ) ≤ idfRatio N df := by
    unfold idfRatio
    rw [le_div_iff (by positivity)]
    have h2 : ((2 * df : ℕ) : ℚ) ≤ ((N : ℕ) : ℚ) := by exact_mod_cast hN
    push_cast at h2 ⊢
    linarith
  exact_mod_cast h1

theorem df_pos {cands : List String} {c t : String} (hc : c ∈ cands)
    (ht : t ∈ tokenize c) : 1 ≤ dfCount cands t := by
  unfold dfCount
  have hmem : c ∈ cands.filter (fun c => decide (t ∈ tokenize c)) :=
    List.mem_filter.mpr ⟨hc, by simp [ht]⟩
  have := List.length_pos.mpr (List.ne_nil_of_mem hmem)
  omega

theorem bm25TermScore_mono {cands : List String} {ci cj t : String}
    (hci : ci ∈ cands) (hcj : cj ∈ cands)
    (hlen : (tokenize ci).length = (tokenize cj).length)
    (hcnt : List.count t (tokenize cj) ≤ List.count t (tokenize ci))
    (hdf : 2 * dfCount cands t ≤ cands.length) :
    bm25TermScore cands cj t ≤ bm25TermScore cands ci t := by
  unfold bm25TermScore
  by_cases hj : List.count t (tokenize cj) = 0
  · rw [if_pos hj]
    by_cases hi : List.count t (tokenize ci) = 0
    · rw [if_pos hi]
    · rw [if_neg hi]
      have hti : t ∈ tokenize ci := by
        by_contra hno
        exact hi (List.count_eq_zero.mpr hno)
      have hidf : 0 ≤ idf cands.length (dfCount cands t) :=
        idf_nonneg (df_pos hci hti) hdf
      have havg : 0 < avgLen cands := avgLen_pos hci (docLenQ_one_le hti)
      have hr : 0 ≤ bm25RatioQ cands ci t :=
        bm25RatioQ_nonneg ci t (bm25K_pos ci havg)
      have hrc : (0 : ℝ) ≤ ((bm25RatioQ cands ci t : ℚ) : ℝ) := by
        exact_mod_cast hr
      exact mul_nonneg hidf hrc
  · have hi : List.count t (tokenize ci) ≠ 0 := by omega
    rw [if_neg hj, if_neg hi]
    have htj : t ∈ tokenize cj := by
      by_contra hno
      exact hj (List.count_eq_zero.mpr hno)
    have hidf : 0 ≤ idf cands.length (dfCount cands t) :=
      idf_nonneg (df_pos hcj htj) hdf
    have havg : 0 < avgLen cands := avgLen_pos hcj (docLenQ_one_le htj)
    have hKi : 0 < bm25K cands ci := bm25K_pos ci havg
    have hKeq : bm25K cands cj = bm25K cands ci := by
      unfold bm25K docLenQ
      rw [hlen]
    have hratio := bm25RatioQ_mono hKi hKeq hcnt
    have hcast : ((bm25RatioQ cands cj t : ℚ) : ℝ) ≤
        ((bm25RatioQ cands ci t : ℚ) : ℝ) := by exact_mod_cast hratio
    exact mul_le_mul_of_nonneg_left hcast hidf

/-- C7 amended: the BM25 reranker is monotone in query-term occurrences for
equal-length candidates provided every query term has nonnegative idf,
i.e. occurs in at most half of the candidates (2*df <= N); with a term
occurring in more than half of the candidates the idf is negative and the
order can invert (see the counterexample). -/
theorem C7_bm25_monotone (query : String) (cands : List String)
    (ci cj : String) (hci : ci ∈ cands) (hcj : cj ∈ cands)
    (hlen : (tokenize ci).length = (tokenize cj).length)
    (hcnt : ∀ t ∈ tokenize query,
      List.count t (tokenize cj) ≤ List.count t (tokenize ci))
    (hdf : ∀ t ∈ tokenize query, 2 * dfCount cands t ≤ cands.length) :
    bm25Score query cands cj ≤ bm25Score query cands ci := by
  unfold bm25Score
  apply List.sum_le_sum
  intro t ht
  exact bm25TermScore_mono hci hcj hlen (hcnt t ht) (hdf t ht)

/-- C7 witness: the monotonicity theorem applied to a corpus where the
query term occurs in exactly half of the candidates. -/
theorem C7_bm25_monotone_witness :
    ("foo x" ∈ (["foo x", "y z"] : List String)) ∧
    ("y z" ∈ (["foo x", "y z"] : List String)) ∧
    (tokenize "foo x").length = (tokenize "y z").length ∧
    (∀ t ∈ tokenize "foo",
      List.count t (tokenize "y z") ≤ List.count t (tokenize "foo x")) ∧
    (∀ t ∈ tokenize "foo",
      2 * dfCount ["foo x", "y z"] t ≤ (["foo x", "y z"] : List String).length) ∧
    bm25Score "foo" ["foo x", "y z"] "y z" ≤
      bm25Score "foo" ["foo x", "y z"] "foo x" :=
  ⟨by decide, by decide, by decide, by decide, by decide,
    C7_bm25_monotone "foo" ["foo x", "y z"] "foo x" "y z" (by decide)
      (by decide) (by decide) (by decide) (by decide)⟩

/-- C7 counterexample: with candidates "foo foo x" and "foo y z" (equal
tokenized length 3) and query "foo", the first candidate has strictly more
query-term occurrences (2 versus 1), yet its BM25 rerank score is strictly
smaller: the term foo occurs in both of the two candidates, so its idf is
ln(0.5/2.5) < 0 and a larger tf factor makes the score more negative. -/
theorem C7_bm25_counterexample :
    (tokenize "foo foo x").length = (tokenize "foo y z").length ∧
    List.count "foo" (tokenize "foo y z") <
      List.count "foo" (tokenize "foo foo x") ∧
    bm25Score "foo" ["foo foo x", "foo y z"] "foo foo x" <
      bm25Score "foo" ["foo foo x", "foo y z"] "foo y z" := by
  have ht1 : tokenize "foo foo x" = ["foo", "foo", "x"] := by decide
  have ht2 : tokenize "foo y z" = ["foo", "y", "z"] := by decide
  have htq : tokenize "foo" = ["foo"] := by decide
  have hc1 : List.count "foo" (tokenize "foo foo x") = 2 := by decide
  have hc2 : List.count "foo" (tokenize "foo y z") = 1 := by decide
  have hdf : dfCount ["foo foo x", "foo y z"] "foo" = 2 := by decide
  have hd1 : docLenQ "foo foo x" = 3 := by
    unfold docLenQ
    rw [ht1]
    norm_num
  have hd2 : docLenQ "foo y z" = 3 := by
    unfold docLenQ
    rw [ht2]
    norm_num
  have havg : avgLen ["foo foo x", "foo y z"] = 3 := by
    unfold avgLen
    rw [if_neg (by simp)]
    simp only [List.map_cons, List.map_nil, List.sum_cons, List.sum_nil]
    rw [hd1, hd2]
    norm_num
  have hK1 : bm25K ["foo foo x", "foo y z"] "foo foo x" = 3 / 2 := by
    unfold bm25K
    rw [hd1, havg]
    norm_num
  have hK2 : bm25K ["foo foo x", "foo y z"] "foo y z" = 3 / 2 := by
    unfold bm25K
    rw [hd2, havg]
    norm_num
  have hr1 : bm25RatioQ ["foo foo x", "foo y z"] "foo foo x" "foo" = 10 / 7 := by
    unfold bm25RatioQ
    rw [hc1, hK1]
    norm_num
  have hr2 : bm25RatioQ ["foo foo x", "foo y z"] "foo y z" "foo" = 1 := by
    unfold bm25RatioQ
    rw [hc2, hK2]
    norm_num
  have hidf : idf 2 2 = Real.log ((1 / 5 : ℚ) : ℝ) := by
    unfold idf
    rw [if_neg (by norm_num)]
    have hir : idfRatio 2 2 = 1 / 5 := by
      unfold idfRatio
      norm_num
    rw [hir]
  have hs1 : bm25Score "foo" ["foo foo x", "foo y z"] "foo foo x" =
      Real.log ((1 / 5 : ℚ) : ℝ) * ((10 / 7 : ℚ) : ℝ) := by
    unfold bm25Score
    rw [htq]
    simp only [List.map_cons, List.map_nil, List.sum_cons, List.sum_nil,
      add_zero]
    unfold bm25TermScore
    rw [if_neg (by decide)]
    rw [show dfCount ["foo foo x", "foo y z"] "foo" = 2 from hdf]
    rw [show (["foo foo x", "foo y z"] : List String).length = 2 from rfl]
    rw [hidf, hr1]
  have hs2 : bm25Score "foo" ["foo foo x", "foo y z"] "foo y z" =
      Real.log ((1 / 5 : ℚ) : ℝ) * ((1 : ℚ) : ℝ) := by
    unfold bm25Score
    rw [htq]
    simp only [List.map_cons, List.map_nil, List.sum_cons, List.sum_nil,
      add_zero]
    unfold bm25TermScore
    rw [if_neg (by decide)]
    rw [show dfCount ["foo foo x", "foo y z"] "foo" = 2 from hdf]
    rw [show (["foo foo x", "foo y z"] : List String).length = 2 from rfl]
    rw [hidf, hr2]
  refine ⟨by decide, by decide, ?_⟩
  rw [hs1, hs2]
  have hlog : Real.log ((1 / 5 : ℚ) : ℝ) < 0 := by
    have hcast : ((1 / 5 : ℚ) : ℝ) = 1 / 5 := by norm_num
    rw [hcast]
    exact Real.log_neg (by norm_num) (by norm_num)
  have h17 : ((10 / 7 : ℚ) : ℝ) = 10 / 7 := by norm_num
  have h11 : ((1 : ℚ) : ℝ) = 1 := by norm_num
  rw [h17, h11]
  nlinarith [hlog]
